import Mathlib

/-!
# Namespace layer of the Pintos file system (`src/filesys/filesys.c`)

A shallow embedding of path resolution (`parse_path`) and of the top-level
operations `filesys_create`, `filesys_open`, `filesys_remove`,
`filesys_change_dir` and `filesys_create_dir`, as state-passing functions over
an explicit file-system state.

C strings are lists of characters (the terminating NUL is implicit), pointers
to `struct inode` are the sector numbers of the inodes they denote (the inode
layer keeps one in-memory inode per sector), and a `struct dir *` is an
`Option dir`.  Memory-allocation failure is not modelled.
-/

namespace Filesys

/-! ## Definitions: the embedding of filesys.c, its modelled collaborators, and the notions
used in the statements -/

/-! ### Constants and C strings -/

abbrev block_sector_t := Nat

abbrev cstr := List Char

/-- Modelled from the spec: `NAME_MAX` is defined in `directory.h`, which is not among the
sources; its value 14 is the one recorded at filesys.c:14. -/
def NAME_MAX : Nat := 14

def PATH_MAX : Nat := 256

def FREE_MAP_SECTOR : block_sector_t := 0

def ROOT_DIR_SECTOR : block_sector_t := 1

/-- Size in bytes of one `struct dir_entry` (sector, `NAME_MAX + 1` name bytes, in-use flag). -/
def DIR_ENTRY_SIZE : Nat := 20

/-- Pointwise update of a table indexed by sector numbers. -/
def upd {α : Type} (f : block_sector_t → α) (k : block_sector_t) (v : α) : block_sector_t → α :=
  fun x => if x = k then v else f x

def strlen (s : cstr) : Nat := s.length

/-- Modelled from the spec: `lib/string.c` is not among the sources; `strlcpy (dst, src, size)`
leaves in `dst` at most `size - 1` characters of `src`, and leaves `dst` alone when `size` is 0. -/
def strlcpy (dst src : cstr) (size : Nat) : cstr :=
  if size = 0 then dst else src.take (size - 1)

/-- Modelled from the spec: `lib/string.c` is not among the sources; `strlcat (dst, src, size)`
appends characters of `src` to `dst` as long as the result stays below `size` bytes with its
terminator. -/
def strlcat (dst src : cstr) (size : Nat) : cstr :=
  if dst.length < size then dst ++ src.take (size - dst.length - 1) else dst

/-- Modelled from the spec: `lib/string.c` is not among the sources; one call of
`strtok_r (_, "/", &save_ptr)` on the not yet tokenised input: leading separators are skipped,
the token runs up to the next separator, and the new `save_ptr` is the input after that
separator.  The result is `(token, save_ptr)`, the token being `none` for `NULL`. -/
def strtok_r (s : cstr) : Option cstr × cstr :=
  match s.dropWhile (fun c => c == '/') with
  | [] => (none, [])
  | c :: cs =>
    (some ((c :: cs).takeWhile (fun x => x != '/')),
     ((c :: cs).dropWhile (fun x => x != '/')).drop 1)

/-! ### State -/

/-- An in-use directory entry. -/
structure dir_entry where
  inode_sector : block_sector_t
  name : cstr
deriving DecidableEq

/-- Modelled from the spec: `inode.c` is not among the sources; the on-disk object at a sector:
its logical length, its is-a-directory flag, and its payload read as directory entries. -/
structure inode_disk where
  length : Nat
  is_dir : Bool
  entries : List dir_entry
deriving DecidableEq

/-- Open directory handle (`struct dir`): the backing inode and the read position. -/
structure dir where
  inode : block_sector_t
  pos : Nat
deriving DecidableEq

/-- State of the file system together with the running thread's current directory.
`free_map` is the free-map bitmap over the `fs_size` sectors of the device (true: in use),
`disk` the object stored at each sector, `open_cnt` and `removed` the in-memory part of the
inode layer (open-handle count, with 0 for an inode that is not open, and the removed flag of
an open inode), and `current_dir` is `thread_current ()->current_dir`. -/
structure filesys where
  fs_size : Nat
  free_map : block_sector_t → Bool
  disk : block_sector_t → inode_disk
  open_cnt : block_sector_t → Nat
  removed : block_sector_t → Bool
  current_dir : Option dir

/-! ### Collaborators of filesys.c: free map, inode layer, directory layer -/

/-- Modelled from the spec: `free-map.c` is not among the sources; `free_map_allocate (1, &s)`
marks the lowest free sector of the device as used and returns it, or fails. -/
def free_map_allocate (st : filesys) : filesys × Option block_sector_t :=
  match (List.range st.fs_size).find? (fun s => !st.free_map s) with
  | none => (st, none)
  | some s => ({ st with free_map := upd st.free_map s true }, some s)

/-- Modelled from the spec: `free-map.c` is not among the sources; `free_map_release (s, 1)`
marks sector `s` free. -/
def free_map_release (st : filesys) (s : block_sector_t) : filesys :=
  { st with free_map := upd st.free_map s false }

/-- Modelled from the spec: `inode.c` is not among the sources; `inode_create` writes a fresh
object of the given length and kind at `sector`. -/
def inode_create (st : filesys) (sector : block_sector_t) (length : Nat) (is_dir : Bool) :
    filesys × Bool :=
  ({ st with disk := upd st.disk sector ⟨length, is_dir, []⟩ }, true)

/-- Modelled from the spec: `inode.c` is not among the sources; `inode_open` returns the inode of
`sector`, counting one more open handle (a first open starts at count 1, not removed). -/
def inode_open (st : filesys) (sector : block_sector_t) : filesys × block_sector_t :=
  if st.open_cnt sector = 0 then
    ({ st with open_cnt := upd st.open_cnt sector 1, removed := upd st.removed sector false },
     sector)
  else ({ st with open_cnt := upd st.open_cnt sector (st.open_cnt sector + 1) }, sector)

/-- Modelled from the spec: `inode.c` is not among the sources; `inode_reopen` counts one more
handle on an open inode. -/
def inode_reopen (st : filesys) (i : block_sector_t) : filesys × block_sector_t :=
  if st.open_cnt i = 0 then (st, i)
  else ({ st with open_cnt := upd st.open_cnt i (st.open_cnt i + 1) }, i)

/-- Modelled from the spec: `inode.c` is not among the sources; `inode_close` drops one handle;
the last close of a removed inode gives its sector back to the free map. -/
def inode_close (st : filesys) (i : block_sector_t) : filesys :=
  if st.open_cnt i = 0 then st
  else if st.open_cnt i = 1 then
    if st.removed i then free_map_release { st with open_cnt := upd st.open_cnt i 0 } i
    else { st with open_cnt := upd st.open_cnt i 0 }
  else { st with open_cnt := upd st.open_cnt i (st.open_cnt i - 1) }

/-- Modelled from the spec: `inode.c` is not among the sources; `inode_remove` marks an open
inode for deletion at its last close. -/
def inode_remove (st : filesys) (i : block_sector_t) : filesys :=
  { st with removed := upd st.removed i true }

def inode_is_dir (st : filesys) (i : block_sector_t) : Bool := (st.disk i).is_dir

def inode_length (st : filesys) (i : block_sector_t) : Nat := (st.disk i).length

def inode_get_inumber (i : block_sector_t) : block_sector_t := i

def inode_open_cnt (st : filesys) (i : block_sector_t) : Nat := st.open_cnt i

/-- Modelled from the spec: `directory.c` is not among the sources; `dir_create (sector, cnt)`
creates a directory object with room for `cnt` entries. -/
def dir_create (st : filesys) (sector : block_sector_t) (entry_cnt : Nat) : filesys × Bool :=
  inode_create st sector (entry_cnt * DIR_ENTRY_SIZE) true

/-- Modelled from the spec: `directory.c` is not among the sources; `dir_open` wraps an inode in
a handle positioned at the start and takes over the inode reference; a `NULL` inode gives
`NULL`. -/
def dir_open (inode : Option block_sector_t) : Option dir :=
  match inode with
  | none => none
  | some i => some ⟨i, 0⟩

def dir_open_root (st : filesys) : filesys × Option dir :=
  let r := inode_open st ROOT_DIR_SECTOR
  (r.1, dir_open (some r.2))

/-- Modelled from the spec: `directory.c` is not among the sources; `dir_reopen` opens a second
handle on the inode of `d`.  A `NULL` argument (dereferenced by the C code) yields `NULL`. -/
def dir_reopen (st : filesys) (d : Option dir) : filesys × Option dir :=
  match d with
  | none => (st, none)
  | some d =>
    let r := inode_reopen st d.inode
    (r.1, dir_open (some r.2))

def dir_close (st : filesys) (d : Option dir) : filesys :=
  match d with
  | none => st
  | some d => inode_close st d.inode

def dir_get_inode (d : dir) : block_sector_t := d.inode

/-- Rewrite the entries stored in the object at sector `i`, keeping its length and kind. -/
def set_entries (st : filesys) (i : block_sector_t) (es : List dir_entry) : filesys :=
  { st with disk := upd st.disk i (inode_disk.mk (st.disk i).length (st.disk i).is_dir es) }

/-- The in-use entry of directory inode `i` named `name`, if any (`lookup` of `directory.c`). -/
def lookup (st : filesys) (i : block_sector_t) (name : cstr) : Option dir_entry :=
  (st.disk i).entries.find? (fun e => e.name = name)

/-- Modelled from the spec: `directory.c` is not among the sources; `dir_lookup (dir, name, &inode)`
opens the inode of the entry called `name`, or reports that there is none. -/
def dir_lookup (st : filesys) (d : dir) (name : cstr) : filesys × Option block_sector_t :=
  match lookup st d.inode name with
  | none => (st, none)
  | some e =>
    let r := inode_open st e.inode_sector
    (r.1, some r.2)

/-- Modelled from the spec: `directory.c` is not among the sources; `dir_add` refuses an empty
name, a name longer than `NAME_MAX`, a name already present, and a full directory; otherwise it
stores the entry. -/
def dir_add (st : filesys) (d : dir) (name : cstr) (inode_sector : block_sector_t) :
    filesys × Bool :=
  if name = [] ∨ strlen name > NAME_MAX then (st, false)
  else if (lookup st d.inode name).isSome then (st, false)
  else if (st.disk d.inode).entries.length < (st.disk d.inode).length / DIR_ENTRY_SIZE then
    (set_entries st d.inode ((st.disk d.inode).entries ++ [⟨inode_sector, name⟩]), true)
  else (st, false)

/-- Modelled from the spec: `directory.c` is not among the sources; `dir_remove` erases the entry
called `name` and marks its inode removed. -/
def dir_remove (st : filesys) (d : dir) (name : cstr) : filesys × Bool :=
  match lookup st d.inode name with
  | none => (st, false)
  | some e =>
    let r := inode_open st e.inode_sector
    let st2 := set_entries r.1 d.inode
      ((r.1.disk d.inode).entries.eraseP (fun x => x.name = name))
    (inode_close (inode_remove st2 r.2) r.2, true)

/-- Modelled from the spec: `directory.c` is not among the sources; `dir_readdir` yields the next
entry at or after the read position that is neither `.` nor `..`, if any. -/
def dir_readdir (st : filesys) (d : dir) : Option cstr :=
  (((st.disk d.inode).entries.drop d.pos).find?
    (fun e => e.name ≠ ['.'] ∧ e.name ≠ ['.', '.'])).map (fun e => e.name)

/-! ### filesys.c -/

/-- The `while (token != NULL && nextToken != NULL)` loop of `parse_path`.  `token` is the
current token, `nextToken` the one after it and `savePtr` the input `strtok_r` has not consumed
yet.  Each round consumes input, so `fuel` rounds suffice when `fuel` is at least the number of
tokens left; the loop exits with the leaf copied to `file_name`. -/
def parse_path_loop : Nat → filesys → dir → cstr → Option cstr → cstr →
    filesys × Option (dir × cstr)
  | _, st, dir, token, none, _ => (st, some (dir, strlcpy [] token PATH_MAX))
  | 0, st, _, _, some _, _ => (st, none)
  | fuel + 1, st, dir, token, some nextToken, savePtr =>
    if strlen token > NAME_MAX + 1 ∨ strlen nextToken > NAME_MAX + 1 then
      (dir_close st (some dir), none)
    else
      match dir_lookup st dir token with
      | (st1, none) => (dir_close st1 (some dir), none)
      | (st1, some inode) =>
        let st2 := dir_close st1 (some dir)
        if !inode_is_dir st2 inode then (st2, none)
        else
          match dir_open (some inode) with
          | none => (st2, none)
          | some dir1 =>
            let token1 := strlcpy token nextToken PATH_MAX
            let r := strtok_r savePtr
            parse_path_loop fuel st2 dir1 token1 r.1 r.2

/-- Embedding of `parse_path (path_name, file_name)`: the result is the state after the call
and, on success, the containing directory handle with the leaf written to `file_name`.  Both
pointer arguments are taken to be non-null, as at every call site.  A relative path with no
current directory (where the C code dereferences `NULL`) is a failure. -/
def parse_path (st : filesys) (path_name : cstr) : filesys × Option (dir × cstr) :=
  if strlen path_name = 0 then (st, none)
  else
    let path_copy := strlcpy [] path_name (PATH_MAX + 1)
    let r := if path_copy.head? = some '/' then dir_open_root st
             else dir_reopen st st.current_dir
    match r with
    | (st1, none) => (st1, none)
    | (st1, some dir) =>
      let t := strtok_r path_copy
      let n := strtok_r t.2
      match t.1 with
      | none => (st1, some (dir, strlcpy [] ['.'] 2))
      | some token =>
        if n.1 = none ∧ strlen token > NAME_MAX + 1 then (dir_close st1 (some dir), none)
        else parse_path_loop (strlen path_copy) st1 dir token n.1 n.2

/-- Embedding of `filesys_create (name, initial_size)` (filesys.c:56-75).  `inode_sector` is
the sector written by `free_map_allocate`; it stays 0, and nothing is released, when the
allocation fails. -/
def filesys_create (st : filesys) (name : cstr) (initial_size : Nat) : filesys × Bool :=
  match parse_path st name with
  | (st1, none) => (dir_close st1 none, false)
  | (st1, some (dir, file_name)) =>
    match free_map_allocate st1 with
    | (st2, none) => (dir_close st2 (some dir), false)
    | (st2, some inode_sector) =>
      let c := inode_create st2 inode_sector initial_size false
      let a := if c.2 then dir_add c.1 dir file_name inode_sector else (c.1, false)
      let st4 := if !a.2 ∧ inode_sector ≠ 0 then free_map_release a.1 inode_sector else a.1
      (dir_close st4 (some dir), a.2)

/-- Modelled from the spec: `file.c` is not among the sources; `file_open` wraps an inode in a
file handle, which is identified here with the inode it is open on. -/
def file_open (inode : block_sector_t) : Option block_sector_t := some inode

/-- Embedding of `filesys_open (name)` (filesys.c:82-116); the result is the file handle. -/
def filesys_open (st : filesys) (name : cstr) : filesys × Option block_sector_t :=
  match parse_path st name with
  | (st1, none) => (st1, none)
  | (st1, some (dir, file_name)) =>
    match dir_lookup st1 dir file_name with
    | (st2, none) => (dir_close st2 (some dir), none)
    | (st2, some inode) => (dir_close st2 (some dir), file_open inode)

/-- Embedding of `filesys_remove (name)` (filesys.c:122-181).  `inode_ == inode` compares
inode pointers, which denote the same inode exactly when the sectors are equal.  A thread with no
current directory (where `dir_get_inode` dereferences `NULL`) is a failure. -/
def filesys_remove (st : filesys) (name : cstr) : filesys × Bool :=
  match parse_path st name with
  | (st1, none) => (st1, false)
  | (st1, some (dir, file_name)) =>
    match dir_lookup st1 dir file_name with
    | (st2, none) => (dir_close st2 (some dir), false)
    | (st2, some inode) =>
      if inode_is_dir st2 inode then
        match st2.current_dir with
        | none => (st2, false)
        | some t_dir =>
          if dir_get_inode t_dir = inode then (dir_close st2 (some dir), false)
          else if inode_open_cnt st2 inode > 1 then (dir_close st2 (some dir), false)
          else
            match dir_open (some inode) with
            | none => (dir_close st2 (some dir), false)
            | some current_dir =>
              let r := if dir_readdir st2 current_dir = none then dir_remove st2 dir file_name
                       else (st2, false)
              let st4 := dir_close r.1 (some current_dir)
              (dir_close st4 (some dir), r.2)
      else
        let r := dir_remove st2 dir file_name
        (dir_close r.1 (some dir), r.2)

/-- Embedding of `filesys_change_dir (dir)` (filesys.c:277-311).  As in the C code, neither
return path after a successful `parse_path` closes `directory`. -/
def filesys_change_dir (st : filesys) (dir : cstr) : filesys × Bool :=
  if strlen dir = 0 then (st, false)
  else
    let cp_dir := strlcat (strlcpy [] dir 256) ['/', '0'] 256
    match parse_path st cp_dir with
    | (st1, none) => (st1, false)
    | (st1, some (directory, file_name)) =>
      match dir_lookup st1 directory file_name with
      | (st2, none) => (st2, false)
      | (st2, some inode) =>
        let change_directory := dir_open (some inode)
        match st2.current_dir with
        | none => ({ st2 with current_dir := change_directory }, true)
        | some old =>
          let st3 := dir_close st2 (some old)
          ({ st3 with current_dir := change_directory }, true)

/-- Embedding of `filesys_create_dir (name)` (filesys.c:314-345). -/
def filesys_create_dir (st : filesys) (name : cstr) : filesys × Bool :=
  match parse_path st name with
  | (st1, none) => (dir_close st1 none, false)
  | (st1, some (dir, file_name)) =>
    match free_map_allocate st1 with
    | (st2, none) => (dir_close st2 (some dir), false)
    | (st2, some inode_sector) =>
      let c := dir_create st2 inode_sector 16
      let a := if c.2 then dir_add c.1 dir file_name inode_sector else (c.1, false)
      if a.2 then
        let o := inode_open a.1 inode_sector
        match dir_open (some o.2) with
        | none => (dir_close o.1 (some dir), true)
        | some directory =>
          let s1 := (dir_add o.1 directory ['.'] inode_sector).1
          let sector := inode_get_inumber (dir_get_inode dir)
          let s2 := (dir_add s1 directory ['.', '.'] sector).1
          let s3 := dir_close s2 (some directory)
          (dir_close s3 (some dir), true)
      else
        let st4 := if inode_sector ≠ 0 then free_map_release a.1 inode_sector else a.1
        (dir_close st4 (some dir), false)

/-- Embedding of `do_format` (filesys.c:185-200), preceded by `free_map_init`: a fresh free map
with the free-map and root sectors in use, and a root directory of 16 slots holding `.` and
`..`.  The free-map file itself is not modelled. -/
def do_format (st : filesys) : filesys :=
  let st0 : filesys :=
    { st with free_map := fun s => decide (s = FREE_MAP_SECTOR ∨ s = ROOT_DIR_SECTOR) }
  let c := dir_create st0 ROOT_DIR_SECTOR 16
  let r := dir_open_root c.1
  match r.2 with
  | none => r.1
  | some root_dir =>
    let s1 := (dir_add r.1 root_dir ['.'] ROOT_DIR_SECTOR).1
    let s2 := (dir_add s1 root_dir ['.', '.'] ROOT_DIR_SECTOR).1
    dir_close s2 (some root_dir)

/-- Embedding of `filesys_init (format)` (filesys.c:24-41) on a device image `dev`: no inode is
open, the device is formatted on request, and the thread's current directory is the root. -/
def filesys_init (dev : filesys) (format : Bool) : filesys :=
  let st0 : filesys := { dev with open_cnt := fun _ => 0, current_dir := none }
  let st1 := if format then do_format st0 else st0
  let r := dir_open_root st1
  { r.1 with current_dir := r.2 }

/-- A blank device of `n` sectors. -/
def blank_device (n : Nat) : filesys :=
  { fs_size := n
    free_map := fun _ => false
    disk := fun _ => ⟨0, false, []⟩
    open_cnt := fun _ => 0
    removed := fun _ => false
    current_dir := none }

/-! ### Notions used in the statements and proofs -/

/-- The pieces of a path between its separators, empty pieces included. -/
def split_slash : cstr → List cstr
  | [] => [[]]
  | c :: cs =>
    if c = '/' then [] :: split_slash cs
    else
      match split_slash cs with
      | [] => [[c]]
      | p :: ps => (c :: p) :: ps

/-- The components of a path: its non-empty pieces between separators, in order. -/
def components (p : cstr) : List cstr := (split_slash p).filter (fun t => t ≠ [])

/-- The directory reached from the directory at sector `d` by descending through `names` in
turn; `none` when a name is absent from the directory reached so far or names an object that is
not a directory. -/
def walk (st : filesys) : block_sector_t → List cstr → Option block_sector_t
  | d, [] => some d
  | d, n :: ns =>
    match lookup st d n with
    | none => none
    | some e => if (st.disk e.inode_sector).is_dir then walk st e.inode_sector ns else none

/-- The tokens left once `strtok_r` has produced `nextToken` and stopped at `savePtr`. -/
def tokens_left (nextToken : Option cstr) (savePtr : cstr) : List cstr :=
  match nextToken with
  | none => []
  | some n => n :: components savePtr

/-- The loop of `parse_path` read on the disk contents alone: the sector of the directory the
loop ends in and the leaf, or `none` when the loop fails. -/
def resolve_loop (disk : block_sector_t → inode_disk) :
    block_sector_t → cstr → List cstr → Option (block_sector_t × cstr)
  | d, token, [] => some (d, token)
  | d, token, n :: rest =>
    if strlen token > NAME_MAX + 1 ∨ strlen n > NAME_MAX + 1 then none
    else
      match (disk d).entries.find? (fun e => e.name = token) with
      | none => none
      | some e =>
        if (disk e.inode_sector).is_dir then resolve_loop disk e.inode_sector n rest else none

/-- What `parse_path` preserves: the disk contents, the device size and the current directory. -/
def same_disk (st st1 : filesys) : Prop :=
  st1.disk = st.disk ∧ st1.fs_size = st.fs_size ∧ st1.current_dir = st.current_dir

/-- Sector of the directory `parse_path` starts from: the root for a path that begins with a
separator, else the current directory. -/
def start_dir (st : filesys) (path : cstr) : Option block_sector_t :=
  if path.head? = some '/' then some ROOT_DIR_SECTOR else st.current_dir.map (fun d => d.inode)

/-- The result of `parse_path` read on the disk contents and the current directory alone. -/
def resolve (st : filesys) (path : cstr) : Option (dir × cstr) :=
  if path = [] then none
  else
    match start_dir st path with
    | none => none
    | some s =>
      match components (path.take PATH_MAX) with
      | [] => some (⟨s, 0⟩, ['.'])
      | t :: rest =>
        if rest = [] ∧ strlen t > NAME_MAX + 1 then none
        else (resolve_loop st.disk s t rest).map (fun r => ((⟨r.1, 0⟩ : dir), r.2))

/-- Descending through `names` from the directory at sector `start` fails: some name, taken
after the names before it have led to a directory `d`, is absent from `d` or names an object
that is not a directory. -/
def walk_fails (st : filesys) (start : block_sector_t) (names : List cstr) : Prop :=
  ∃ (pre : List cstr) (name : cstr) (post : List cstr) (d : block_sector_t),
    names = pre ++ name :: post ∧ walk st start pre = some d ∧
    (lookup st d name = none ∨
      ∃ e, lookup st d name = some e ∧ (st.disk e.inode_sector).is_dir = false)

/-- What `parse_path` makes of the token list of a path, read on the disk contents alone. -/
def resolve_tokens (disk : block_sector_t → inode_disk) (d : block_sector_t) :
    List cstr → Option (block_sector_t × cstr)
  | [] => some (d, ['.'])
  | t :: rest =>
    if rest = [] ∧ strlen t > NAME_MAX + 1 then none else resolve_loop disk d t rest

/-- Handles accounted for while `st0` evolves into `st`: the free map is the same, and every
inode that is open and marked removed in `st` was so in `st0`, with at least its count in `st0`
plus the handles in `hs` that are still to be closed. -/
def inv (st0 st : filesys) (hs : List block_sector_t) : Prop :=
  st.free_map = st0.free_map ∧
  ∀ s, 0 < st.open_cnt s → st.removed s = true →
    0 < st0.open_cnt s ∧ st0.removed s = true ∧ st0.open_cnt s + hs.count s ≤ st.open_cnt s

/-- The inode a successful `parse_path` leaves open for its caller. -/
def held (r : Option (dir × cstr)) : List block_sector_t :=
  match r with
  | none => []
  | some x => [x.1.inode]

/-- Sector `s` lies on the device and is marked in use in the free map. -/
def in_use (st : filesys) (s : block_sector_t) : Bool :=
  decide (s < st.fs_size) && st.free_map s

/-- Consistency of the free map with the directory tree: the free map's own sector and the root
directory are in use, the current directory is stored at a sector in use, and every entry of an
object stored at a sector in use refers to a sector in use. -/
def consistent (st : filesys) : Bool :=
  st.free_map FREE_MAP_SECTOR && in_use st ROOT_DIR_SECTOR &&
  (match st.current_dir with
   | none => true
   | some d => in_use st d.inode) &&
  (List.range st.fs_size).all (fun s =>
    !st.free_map s || (st.disk s).entries.all (fun e => in_use st e.inode_sector))

/-- The disk after a successful `filesys_create`: a fresh file object at the allocated sector
`s` and one more entry in the containing directory. -/
def disk_after_create (st : filesys) (d : dir) (leaf : cstr) (n : Nat) (s : block_sector_t) :
    block_sector_t → inode_disk :=
  upd (upd st.disk s ⟨n, false, []⟩) d.inode
    ⟨(st.disk d.inode).length, (st.disk d.inode).is_dir,
      (st.disk d.inode).entries ++ [⟨s, leaf⟩]⟩

/-- A freshly formatted file system on a device of 64 sectors. -/
def fresh_fs : filesys := filesys_init (blank_device 64) true

/-- The fresh file system after `filesys_create_dir ("/a")`. -/
def fs_with_dir_a : filesys := (filesys_create_dir fresh_fs ['/', 'a']).1

/-- The fresh file system after `filesys_create ("/f", 0)`. -/
def fs_with_file_f : filesys := (filesys_create fresh_fs ['/', 'f'] 0).1

/-- The relative path `a`, 252 separators, `bc` (255 characters). -/
def long_relative_path : cstr := 'a' :: (List.replicate 252 '/' ++ ['b', 'c'])

/-- The path made of 253 separators followed by `f` (254 characters). -/
def long_path_to_f : cstr := List.replicate 253 '/' ++ ['f']

/-! ### Scenario states -/

/-- The fresh file system after `filesys_create_dir ("/a")` and `filesys_create ("/a/0", 0)`. -/
def fs_with_file_a0 : filesys := (filesys_create fs_with_dir_a ['/', 'a', '/', '0'] 0).1

/-- Step 1 of the scenario of C15: `make_directory ("/x")` on the fresh file system. -/
def scenario_mkdir_x : filesys × Bool := filesys_create_dir fresh_fs ['/', 'x']

/-- Step 2 of the scenario: `change_directory ("/x")`. -/
def scenario_chdir_x : filesys × Bool := filesys_change_dir scenario_mkdir_x.1 ['/', 'x']

/-- Step 3 of the scenario: `create ("y", 0)`. -/
def scenario_create_y : filesys × Bool := filesys_create scenario_chdir_x.1 ['y'] 0

/-- Step 4 of the scenario: `open ("/x/y")`. -/
def scenario_open_xy : filesys × Option block_sector_t :=
  filesys_open scenario_create_y.1 ['/', 'x', '/', 'y']

/-- Step 5 of the scenario: `remove ("/x")` from inside `/x`. -/
def scenario_remove_x_inside : filesys × Bool := filesys_remove scenario_open_xy.1 ['/', 'x']

/-- Step 6 of the scenario: `change_directory ("/")`. -/
def scenario_chdir_root : filesys × Bool := filesys_change_dir scenario_remove_x_inside.1 ['/']

/-- Step 7 of the scenario: `remove ("/x")` while `/x/y` exists. -/
def scenario_remove_x_nonempty : filesys × Bool :=
  filesys_remove scenario_chdir_root.1 ['/', 'x']

/-- Step 8 of the scenario: `remove ("/x/y")`. -/
def scenario_remove_xy : filesys × Bool :=
  filesys_remove scenario_remove_x_nonempty.1 ['/', 'x', '/', 'y']

/-- Step 9 of the scenario: `remove ("/x")` again. -/
def scenario_remove_x_last : filesys × Bool := filesys_remove scenario_remove_xy.1 ['/', 'x']

/-- The two `dir_add` calls by which `filesys_create_dir` fills in the new directory stored at
sector `s`, the containing directory being stored at sector `p`. -/
def add_self_entries (st : filesys) (s p : block_sector_t) : filesys :=
  (dir_add (dir_add st ⟨s, 0⟩ ['.'] s).1 ⟨s, 0⟩ ['.', '.'] p).1

/-- Open-handle counts while `st0` evolves into `st` with one handle on inode `h` still to be
handed over or closed: every other inode has its count of `st0`, and `h` has one more (or is
not open at all, when the handle duplicates a handle on an inode that is not open). -/
def cnt_inv (st0 st : filesys) (h : block_sector_t) : Prop :=
  (∀ s, s ≠ h → st.open_cnt s = st0.open_cnt s) ∧
  (st.open_cnt h = st0.open_cnt h + 1 ∨ (st.open_cnt h = 0 ∧ st0.open_cnt h = 0))

/-! ### The dentry cache of filesys.c -/

/-- Modelled from the spec: `struct dc_entry` is declared in a header that is not among the
sources; a cache entry carries its key, the full path string, and the cached lookup metadata,
here the sector of the inode the path leads to. -/
structure dc_entry where
  path : cstr
  inumber : block_sector_t
deriving DecidableEq

/-- Modelled from the spec: `lib/string.c` is not among the sources; `strcmp` compares two
strings character by character and yields -1, 0 or 1. -/
def strcmp : cstr → cstr → Int
  | [], [] => 0
  | [], _ :: _ => -1
  | _ :: _, [] => 1
  | a :: as, b :: bs =>
    if a = b then strcmp as bs else if a.toNat < b.toNat then -1 else 1

/-- Modelled from the spec: `lib/kernel/hash.c` is not among the sources; `hash_string` is the
32-bit FNV-1 hash of the characters of a string. -/
def hash_string (s : cstr) : Nat :=
  s.foldl (fun h c => Nat.xor ((h * 16777619) % 2 ^ 32) (c.toNat % 256)) 2166136261

/-- Embedding of `dentry_hash_function` (filesys.c:362-368). -/
def dentry_hash_function (e : dc_entry) : Nat := hash_string e.path

/-- Embedding of `dentry_less_function` (filesys.c:370-385). -/
def dentry_less_function (e_a e_b : dc_entry) : Bool :=
  if strcmp e_a.path e_b.path < 0 then true else false

/-- Modelled from the spec: `lib/kernel/hash.c` is not among the sources; a hash table is its
number of buckets and its elements, the bucket of an element being its hash modulo the number
of buckets. -/
structure hash where
  bucket_cnt : Nat
  elems : List dc_entry

/-- Modelled from the spec: `lib/kernel/hash.c` is not among the sources; the elements in the
bucket that `e` hashes to. -/
def find_bucket (h : hash) (e : dc_entry) : List dc_entry :=
  h.elems.filter (fun x =>
    dentry_hash_function x % h.bucket_cnt = dentry_hash_function e % h.bucket_cnt)

/-- Modelled from the spec: `lib/kernel/hash.c` is not among the sources; `hash_find` returns
the element of the bucket of `e` that is equal to `e`, two elements being equal when neither
is less than the other. -/
def hash_find (h : hash) (e : dc_entry) : Option dc_entry :=
  (find_bucket h e).find? (fun x => !dentry_less_function x e && !dentry_less_function e x)

/-- Modelled from the spec: `lib/kernel/hash.c` is not among the sources; `hash_insert` returns
the element equal to `e` that is already in the table, leaving the table alone, or inserts `e`
and returns a null pointer. -/
def hash_insert (h : hash) (e : dc_entry) : hash × Option dc_entry :=
  match hash_find h e with
  | some old => (h, some old)
  | none => ({ h with elems := e :: h.elems }, none)

/-- Modelled from the spec: `lib/kernel/hash.c` is not among the sources; `hash_delete` removes
and returns the element equal to `e`, if there is one. -/
def hash_delete (h : hash) (e : dc_entry) : hash × Option dc_entry :=
  match hash_find h e with
  | none => (h, none)
  | some found => ({ h with elems := h.elems.erase found }, some found)

/-- Embedding of `dentry_init` (filesys.c:349-351): an empty table. -/
def dentry_init : hash := ⟨4, []⟩

/-- Embedding of `dentry_insertion` (filesys.c:387-393). -/
def dentry_insertion (dentry_cache : hash) (dce : dc_entry) : hash × Bool :=
  let r := hash_insert dentry_cache dce
  (r.1, r.2.isNone)

/-- Embedding of `dentry_deletion` (filesys.c:395-405). -/
def dentry_deletion (dentry_cache : hash) (dce : dc_entry) : hash × Bool :=
  let r := hash_delete dentry_cache dce
  (r.1, r.2.isSome)

/-- Embedding of `dentry_search` (filesys.c:407-419) on the cache `dentry_cache`; only the
`path` field of the probe entry is set and read. -/
def dentry_search (dentry_cache : hash) (path : cstr) : Option dc_entry :=
  hash_find dentry_cache ⟨path, 0⟩

/-- The `for (i = path_length; i >= 0; i--)` loop of `dentry_parent_search`, started at `i`:
the index at which it breaks, the last separator at or before `i`, or -1 when it runs out.
The character at index `path_length` is the terminator. -/
def last_slash : cstr → Nat → Int
  | path, 0 => if path.head? = some '/' then 0 else -1
  | path, i + 1 => if path.get? (i + 1) = some '/' then ((i + 1 : Nat) : Int) else last_slash path i

/-- Embedding of `dentry_parent_search` (filesys.c:421-453) on the cache `dentry_cache`.
`uninit` is the content of the block that `malloc (i+1)` returns for `path_parent`, which the
C code does not initialise before `strlcpy`. -/
def dentry_parent_search (dentry_cache : hash) (uninit : cstr) (path : cstr) :
    Option dc_entry :=
  let path_length := strlen path
  let path_temp := strlcpy uninit path (path_length + 1)
  let i := last_slash path path_length
  let path_parent := strlcpy uninit path_temp (i + 1).toNat
  hash_find dentry_cache ⟨path_parent, 0⟩

/-- A cache holding the single entry for the key `x`. -/
def cache_with_x : hash := (dentry_insertion dentry_init ⟨['x'], 7⟩).1

/-- A cache holding entries for the keys `/a/b` and the empty string. -/
def cache_with_parents : hash :=
  (dentry_insertion (dentry_insertion dentry_init ⟨['/', 'a', '/', 'b'], 5⟩).1 ⟨[], 1⟩).1

/-! ### parse_path on the bytes of path_copy -/

/-- The string terminator. -/
def NUL : Char := Char.ofNat 0

/-- The bytes of memory starting at `path_copy[0]`. -/
abbrev buffer := Nat → Char

/-- Bound on the number of bytes a scan of `path_copy` visits. -/
def SCAN_MAX : Nat := PATH_MAX + 1

/-- Modelled from the spec: `lib/string.c` is not among the sources; `strlen` at address `i`,
scanning for the terminator through at most `fuel` bytes. -/
def strlen_buf (buf : buffer) : Nat → Nat → Nat
  | 0, _ => 0
  | fuel + 1, i => if buf i = NUL then 0 else strlen_buf buf fuel (i + 1) + 1

/-- The string stored at address `i`: the bytes up to the terminator, through at most `fuel`
bytes. -/
def string_at (buf : buffer) : Nat → Nat → cstr
  | 0, _ => []
  | fuel + 1, i => if buf i = NUL then [] else buf i :: string_at buf fuel (i + 1)

/-- Modelled from the spec: `lib/string.c` is not among the sources; `memcpy (dst, src, n)`
copies `n` bytes one by one from the lowest address upwards. -/
def memcpy : Nat → buffer → Nat → Nat → buffer
  | 0, buf, _, _ => buf
  | n + 1, buf, dst, src => memcpy n (upd buf dst (buf src)) (dst + 1) (src + 1)

/-- Modelled from the spec: `lib/string.c` is not among the sources; `strlcpy (dst, src, size)`
inside one buffer: at most `size - 1` bytes of the string at `src` are copied to `dst` and
terminated. -/
def strlcpy_buf (buf : buffer) (dst src size : Nat) : buffer :=
  let src_len := strlen_buf buf SCAN_MAX src
  if size > 0 then
    let dst_len := if src_len < size - 1 then src_len else size - 1
    upd (memcpy dst_len buf dst src) (dst + dst_len) NUL
  else buf

/-- First loop of `strtok_r`: the address of the first byte at or after `s` that is not a
separator. -/
def skip_delimiters (buf : buffer) : Nat → Nat → Nat
  | 0, s => s
  | fuel + 1, s => if buf s = '/' then skip_delimiters buf fuel (s + 1) else s

/-- Second loop of `strtok_r`: the address of the first byte at or after `s` that is a separator
or the terminator. -/
def skip_token (buf : buffer) : Nat → Nat → Nat
  | 0, s => s
  | fuel + 1, s => if buf s = '/' ∨ buf s = NUL then s else skip_token buf fuel (s + 1)

/-- Modelled from the spec: `lib/string.c` is not among the sources; `strtok_r` with the
separator `/` on the buffer, resumed at address `s`: the buffer after the call (the separator
that ends the token is overwritten by a terminator), the address of the token or `none` for
`NULL`, and the new `save_ptr`. -/
def strtok_r_buf (buf : buffer) (s : Nat) : buffer × Option Nat × Nat :=
  let s1 := skip_delimiters buf SCAN_MAX s
  if buf s1 = NUL then (buf, none, s1)
  else
    let s2 := skip_token buf SCAN_MAX s1
    if buf s2 ≠ NUL then (upd buf s2 NUL, some s1, s2 + 1) else (buf, some s1, s2)

/-- The buffer `path_copy` after `strlcpy (path_copy, s, _)` has stored the string `s` at its
start; `uninit` is what the buffer held before. -/
def load (uninit : buffer) (s : cstr) : buffer :=
  fun i => if i < s.length then s.getD i NUL else if i = s.length then NUL else uninit i

/-- The loop of `parse_path` on the buffer `path_copy`: `token`, `nextToken` and `savePtr` are
addresses into the buffer, `strlcpy (token, nextToken, PATH_MAX)` shifts the next token into
the place of the current one, and `strtok_r` goes on from `savePtr`.  Besides the result of
`parse_path_loop`, the names handed to `dir_lookup` are returned, in order. -/
def parse_path_buf_loop : Nat → filesys → dir → buffer → Nat → Option Nat → Nat →
    (filesys × Option (dir × cstr)) × List cstr
  | _, st, dir, buf, token, none, _ =>
    ((st, some (dir, (string_at buf SCAN_MAX token).take (PATH_MAX - 1))), [])
  | 0, st, _, _, _, some _, _ => ((st, none), [])
  | fuel + 1, st, dir, buf, token, some nextToken, savePtr =>
    if strlen_buf buf SCAN_MAX token > NAME_MAX + 1 ∨
        strlen_buf buf SCAN_MAX nextToken > NAME_MAX + 1 then
      ((dir_close st (some dir), none), [])
    else
      match dir_lookup st dir (string_at buf SCAN_MAX token) with
      | (st1, none) => ((dir_close st1 (some dir), none), [string_at buf SCAN_MAX token])
      | (st1, some inode) =>
        let st2 := dir_close st1 (some dir)
        if !inode_is_dir st2 inode then ((st2, none), [string_at buf SCAN_MAX token])
        else
          match dir_open (some inode) with
          | none => ((st2, none), [string_at buf SCAN_MAX token])
          | some dir1 =>
            let buf1 := strlcpy_buf buf token nextToken PATH_MAX
            let r := strtok_r_buf buf1 savePtr
            let rest := parse_path_buf_loop fuel st2 dir1 r.1 token r.2.1 r.2.2
            (rest.1, string_at buf SCAN_MAX token :: rest.2)

/-- Embedding of `parse_path` (filesys.c:205-273) with the buffer `path_copy` and the pointers
into it made explicit; `uninit` is the content of `path_copy` on entry.  The result is that of
`parse_path` together with the names handed to `dir_lookup`, in order. -/
def parse_path_buf (st : filesys) (uninit : buffer) (path_name : cstr) :
    (filesys × Option (dir × cstr)) × List cstr :=
  if strlen path_name = 0 then ((st, none), [])
  else
    let path_copy := load uninit (strlcpy [] path_name (PATH_MAX + 1))
    let r := if path_copy 0 = '/' then dir_open_root st else dir_reopen st st.current_dir
    match r with
    | (st1, none) => ((st1, none), [])
    | (st1, some dir) =>
      let t := strtok_r_buf path_copy 0
      let n := strtok_r_buf t.1 t.2.2
      match t.2.1 with
      | none => ((st1, some (dir, strlcpy [] ['.'] 2)), [])
      | some token =>
        if n.2.1 = none ∧ strlen_buf n.1 SCAN_MAX token > NAME_MAX + 1 then
          ((dir_close st1 (some dir), none), [])
        else parse_path_buf_loop (strlen path_name) st1 dir n.1 token n.2.1 n.2.2

/-- The string `s`, free of terminators, is stored in `buf` at address `i`. -/
def holds (buf : buffer) (i : Nat) (s : cstr) : Prop :=
  (∀ c ∈ s, c ≠ NUL) ∧ ∀ k, k ≤ s.length → buf (i + k) = s.getD k NUL

/-- The buffer state of the loop of `parse_path` matches the tokens `token`, `next` and the
not yet tokenised input `saveL`: the current token is stored at `t`, the next one (if any) at a
higher address, and the remaining input, untouched, at `save`. -/
def buf_inv (buf : buffer) (t : Nat) (n : Option Nat) (save : Nat) (token : cstr)
    (next : Option cstr) (saveL : cstr) : Prop :=
  holds buf t token ∧ holds buf save saveL ∧ save + saveL.length < PATH_MAX ∧
  t + token.length ≤ save ∧
  ((n = none ∧ next = none) ∨
    ∃ ni nx, n = some ni ∧ next = some nx ∧ holds buf ni nx ∧ t < ni ∧ ni + nx.length ≤ save)

/-! ## Theorems -/

theorem split_slash_ne_nil (s : cstr) : split_slash s ≠ [] := by
  cases s with
  | nil => simp [split_slash]
  | cons c cs =>
    unfold split_slash
    split
    · simp
    · split <;> simp

theorem split_slash_word_slash (w r : cstr) (hw : ∀ c ∈ w, c ≠ '/') :
    split_slash (w ++ '/' :: r) = w :: split_slash r := by
  induction w with
  | nil => simp [split_slash]
  | cons c w ih =>
    have hc : c ≠ '/' := hw c (by simp)
    have ih1 := ih (fun x hx => hw x (by simp [hx]))
    simp only [List.cons_append]
    rw [split_slash]
    simp [hc, ih1]

theorem split_slash_word (w : cstr) (hw : ∀ c ∈ w, c ≠ '/') : split_slash w = [w] := by
  induction w with
  | nil => simp [split_slash]
  | cons c w ih =>
    have hc : c ≠ '/' := hw c (by simp)
    have ih1 := ih (fun x hx => hw x (by simp [hx]))
    rw [split_slash]
    simp [hc, ih1]

theorem components_nil : components [] = [] := by
  simp [components, split_slash]

theorem components_slash (cs : cstr) : components ('/' :: cs) = components cs := by
  simp [components, split_slash]

theorem components_dropWhile (s : cstr) :
    components (s.dropWhile (fun c => c == '/')) = components s := by
  induction s with
  | nil => simp
  | cons c cs ih =>
    by_cases hc : c = '/'
    · subst hc
      simp [List.dropWhile_cons, ih, components_slash]
    · simp [List.dropWhile_cons, hc]

theorem components_token (c : Char) (cs : cstr) (hc : c ≠ '/') :
    components (c :: cs) =
      ((c :: cs).takeWhile (fun x => x != '/')) ::
        components (((c :: cs).dropWhile (fun x => x != '/')).drop 1) := by
  have hsplit := List.takeWhile_append_dropWhile (fun x => x != '/') (c :: cs)
  have hw : ∀ x ∈ (c :: cs).takeWhile (fun x => x != '/'), x ≠ '/' := by
    intro x hx
    have := List.mem_takeWhile_imp hx
    simpa using this
  have hne : (c :: cs).takeWhile (fun x => x != '/') ≠ [] := by
    simp [List.takeWhile_cons, hc]
  cases hr : (c :: cs).dropWhile (fun x => x != '/') with
  | nil =>
    rw [hr, List.append_nil] at hsplit
    rw [hsplit] at hw
    rw [hsplit]
    simp only [components, List.drop_nil]
    rw [split_slash_word _ hw]
    simp [split_slash]
  | cons y r =>
    have hy : y = '/' := by
      have := List.head_dropWhile_not (fun x => x != '/') (c :: cs) (by rw [hr]; simp)
      simp only [hr, List.head_cons] at this
      simpa using this
    subst hy
    rw [hr] at hsplit
    conv_lhs => rw [← hsplit]
    rw [components, split_slash_word_slash _ _ hw]
    simp [components, hne]

theorem strtok_r_components (s : cstr) :
    tokens_left (strtok_r s).1 (strtok_r s).2 = components s := by
  unfold strtok_r
  cases h : s.dropWhile (fun c => c == '/') with
  | nil =>
    have := components_dropWhile s
    rw [h] at this
    simp [tokens_left, ← this, components_nil]
  | cons c cs =>
    have hc : c ≠ '/' := by
      have := List.head_dropWhile_not (fun c => c == '/') s (by rw [h]; simp)
      simp only [h, List.head_cons] at this
      simpa using this
    have h2 := components_dropWhile s
    rw [h] at h2
    simp only [tokens_left]
    rw [← h2, components_token c cs hc]

theorem same_disk_refl (st : filesys) : same_disk st st := ⟨rfl, rfl, rfl⟩

theorem same_disk_trans {a b c : filesys} (h1 : same_disk a b) (h2 : same_disk b c) :
    same_disk a c :=
  ⟨h2.1.trans h1.1, h2.2.1.trans h1.2.1, h2.2.2.trans h1.2.2⟩

theorem inode_open_same (st : filesys) (s : block_sector_t) : same_disk st (inode_open st s).1 := by
  unfold inode_open
  split <;> exact ⟨rfl, rfl, rfl⟩

theorem inode_open_snd (st : filesys) (s : block_sector_t) : (inode_open st s).2 = s := by
  unfold inode_open
  split <;> rfl

theorem inode_reopen_same (st : filesys) (s : block_sector_t) :
    same_disk st (inode_reopen st s).1 := by
  unfold inode_reopen
  split <;> exact ⟨rfl, rfl, rfl⟩

theorem inode_reopen_snd (st : filesys) (s : block_sector_t) : (inode_reopen st s).2 = s := by
  unfold inode_reopen
  split <;> rfl

theorem inode_close_same (st : filesys) (s : block_sector_t) : same_disk st (inode_close st s) := by
  unfold inode_close free_map_release
  split
  · exact ⟨rfl, rfl, rfl⟩
  · split
    · split <;> exact ⟨rfl, rfl, rfl⟩
    · exact ⟨rfl, rfl, rfl⟩

theorem dir_close_same (st : filesys) (d : Option dir) : same_disk st (dir_close st d) := by
  cases d with
  | none => exact same_disk_refl st
  | some d => exact inode_close_same st d.inode

theorem dir_lookup_same (st : filesys) (d : dir) (name : cstr) :
    same_disk st (dir_lookup st d name).1 := by
  unfold dir_lookup
  split
  · exact same_disk_refl st
  · exact inode_open_same st _

theorem dir_lookup_snd (st : filesys) (d : dir) (name : cstr) :
    (dir_lookup st d name).2 = (lookup st d.inode name).map (fun e => e.inode_sector) := by
  unfold dir_lookup
  split
  · next h => simp [h]
  · next e h => simp [h, inode_open_snd]

theorem lookup_same {st st1 : filesys} (h : same_disk st st1) (i : block_sector_t) (name : cstr) :
    lookup st1 i name = lookup st i name := by
  simp [lookup, h.1]

theorem parse_path_loop_spec (fuel : Nat) : ∀ (st : filesys) (d : dir) (token : cstr)
    (next : Option cstr) (save : cstr),
    (tokens_left next save).length ≤ fuel → d.pos = 0 →
    (next = none → strlen token < PATH_MAX) →
    same_disk st (parse_path_loop fuel st d token next save).1 ∧
    (parse_path_loop fuel st d token next save).2 =
      (resolve_loop st.disk d.inode token (tokens_left next save)).map
        (fun r => ((⟨r.1, 0⟩ : dir), r.2)) := by
  induction fuel with
  | zero =>
    intro st d token next save hf hp hl
    cases next with
    | none =>
      have hl1 := hl rfl
      simp only [strlen, PATH_MAX] at hl1
      have : List.take 255 token = token := List.take_of_length_le (by omega)
      cases d
      simp_all [parse_path_loop, tokens_left, resolve_loop, same_disk_refl, strlcpy, PATH_MAX]
    | some n => simp [tokens_left] at hf
  | succ fuel ih =>
    intro st d token next save hf hp hl
    cases next with
    | none =>
      have hl1 := hl rfl
      simp only [strlen, PATH_MAX] at hl1
      have : List.take 255 token = token := List.take_of_length_le (by omega)
      cases d
      simp_all [parse_path_loop, tokens_left, resolve_loop, same_disk_refl, strlcpy, PATH_MAX]
    | some n =>
      rw [parse_path_loop]
      simp only [tokens_left, resolve_loop]
      by_cases hchk : strlen token > NAME_MAX + 1 ∨ strlen n > NAME_MAX + 1
      · simp only [hchk, if_true]
        exact ⟨dir_close_same _ _, by simp⟩
      · simp only [hchk, if_false]
        have hsame := dir_lookup_same st d token
        have hsnd := dir_lookup_snd st d token
        rcases hlk : dir_lookup st d token with ⟨st1, oi⟩
        rw [hlk] at hsame hsnd
        simp only at hsame hsnd
        cases hfind : lookup st d.inode token with
        | none =>
          rw [hfind] at hsnd
          simp only [Option.map_none'] at hsnd
          subst hsnd
          simp only
          refine ⟨same_disk_trans hsame (dir_close_same _ _), ?_⟩
          simp only [lookup] at hfind
          simp [hfind]
        | some e =>
          rw [hfind] at hsnd
          simp only [Option.map_some'] at hsnd
          subst hsnd
          simp only
          have hs2 : same_disk st (dir_close st1 (some d)) :=
            same_disk_trans hsame (dir_close_same _ _)
          simp only [lookup] at hfind
          simp only [hfind, inode_is_dir, hs2.1]
          by_cases hd : (st.disk e.inode_sector).is_dir = true
          · simp only [hd, Bool.not_true, Bool.false_eq_true, if_false, if_true, dir_open]
            have hn : strlen n ≤ NAME_MAX + 1 := by
              by_contra hcon
              exact hchk (Or.inr (by omega))
            simp only [strlen, NAME_MAX] at hn
            have htok : strlcpy token n PATH_MAX = n := by
              simp only [strlcpy, PATH_MAX]
              simp only [Nat.reduceEqDiff, if_false]
              exact List.take_of_length_le (by omega)
            rw [htok]
            have hcomp := strtok_r_components save
            have hf1 : (tokens_left (strtok_r save).1 (strtok_r save).2).length ≤ fuel := by
              rw [hcomp]
              simp only [tokens_left, List.length_cons] at hf
              omega
            have := ih (dir_close st1 (some d)) ⟨e.inode_sector, 0⟩ n (strtok_r save).1
              (strtok_r save).2 hf1 rfl (by intro _; simp only [strlen, PATH_MAX]; omega)
            rw [hcomp, hs2.1] at this
            exact ⟨same_disk_trans hs2 this.1, this.2⟩
          · simp only [hd, Bool.not_false, if_true, Bool.false_eq_true, if_false]
            exact ⟨hs2, by simp⟩

theorem split_slash_length (s : cstr) : (split_slash s).length ≤ s.length + 1 := by
  induction s with
  | nil => simp [split_slash]
  | cons c cs ih =>
    rw [split_slash]
    split
    · simp only [List.length_cons]; omega
    · split
      · simp
      · next h => rw [h] at ih; simp only [List.length_cons] at ih ⊢; omega

theorem components_length (s : cstr) : (components s).length ≤ s.length + 1 :=
  le_trans (List.length_filter_le _ _) (split_slash_length s)

theorem dir_open_root_same (st : filesys) : same_disk st (dir_open_root st).1 := by
  unfold dir_open_root
  exact inode_open_same st _

theorem dir_open_root_snd (st : filesys) :
    (dir_open_root st).2 = some ⟨ROOT_DIR_SECTOR, 0⟩ := by
  simp [dir_open_root, dir_open, inode_open_snd]

theorem dir_reopen_same (st : filesys) (d : Option dir) : same_disk st (dir_reopen st d).1 := by
  cases d with
  | none => exact same_disk_refl st
  | some d => exact inode_reopen_same st _

theorem dir_reopen_snd (st : filesys) (d : Option dir) :
    (dir_reopen st d).2 = d.map (fun x => (⟨x.inode, 0⟩ : dir)) := by
  cases d with
  | none => rfl
  | some d => simp [dir_reopen, dir_open, inode_reopen_snd]

theorem head_take_path (path : cstr) : (path.take PATH_MAX).head? = path.head? := by
  cases path <;> simp [PATH_MAX]

theorem parse_path_spec (st : filesys) (path : cstr) :
    same_disk st (parse_path st path).1 ∧ (parse_path st path).2 = resolve st path := by
  unfold parse_path resolve
  by_cases hp : path = []
  · subst hp
    simp [strlen, same_disk_refl]
  · have hlen : ¬ strlen path = 0 := by
      simpa [strlen] using hp
    simp only [hlen, hp, if_false]
    have hcopy : strlcpy [] path (PATH_MAX + 1) = path.take PATH_MAX := by
      simp [strlcpy]
    rw [hcopy, head_take_path]
    have hstart : ∃ r : filesys × Option dir,
        (if path.head? = some '/' then dir_open_root st else dir_reopen st st.current_dir) = r ∧
        same_disk st r.1 ∧ r.2 = (start_dir st path).map (fun s => (⟨s, 0⟩ : dir)) := by
      refine ⟨_, rfl, ?_, ?_⟩
      · split
        · exact dir_open_root_same st
        · exact dir_reopen_same st _
      · unfold start_dir
        split
        · simp [dir_open_root_snd]
        · rw [dir_reopen_snd]; cases st.current_dir <;> rfl
    obtain ⟨⟨st1, od⟩, hr, hs1, hod⟩ := hstart
    rw [hr]
    simp only at hs1 hod
    cases hsd : start_dir st path with
    | none =>
      rw [hsd] at hod
      simp only [Option.map_none'] at hod
      subst hod
      exact ⟨hs1, rfl⟩
    | some s =>
      rw [hsd] at hod
      simp only [Option.map_some'] at hod
      subst hod
      simp only
      have hc1 := strtok_r_components (path.take PATH_MAX)
      have hc2 := strtok_r_components (strtok_r (path.take PATH_MAX)).2
      cases ht : (strtok_r (path.take PATH_MAX)).1 with
      | none =>
        rw [ht] at hc1
        simp only [tokens_left] at hc1
        simp only [← hc1]
        exact ⟨hs1, by simp [strlcpy]⟩
      | some token =>
        rw [ht] at hc1
        simp only [tokens_left] at hc1
        simp only [← hc1]
        have hnone : (strtok_r (strtok_r (path.take PATH_MAX)).2).1 = none ↔
            components (strtok_r (path.take PATH_MAX)).2 = [] := by
          rw [← hc2]
          cases (strtok_r (strtok_r (path.take PATH_MAX)).2).1 <;> simp [tokens_left]
        by_cases hchk : (strtok_r (strtok_r (path.take PATH_MAX)).2).1 = none ∧
            strlen token > NAME_MAX + 1
        · have hchk2 : components (strtok_r (path.take PATH_MAX)).2 = [] ∧
              strlen token > NAME_MAX + 1 := ⟨hnone.1 hchk.1, hchk.2⟩
          rw [if_pos hchk, if_pos hchk2]
          exact ⟨same_disk_trans hs1 (dir_close_same _ _), rfl⟩
        · have hchk2 : ¬ (components (strtok_r (path.take PATH_MAX)).2 = [] ∧
              strlen token > NAME_MAX + 1) := fun h => hchk ⟨hnone.2 h.1, h.2⟩
          rw [if_neg hchk, if_neg hchk2]
          have hfuel : (tokens_left (strtok_r (strtok_r (path.take PATH_MAX)).2).1
              (strtok_r (strtok_r (path.take PATH_MAX)).2).2).length ≤
              strlen (path.take PATH_MAX) := by
            rw [hc2]
            have := components_length (path.take PATH_MAX)
            rw [← hc1] at this
            simp only [List.length_cons, strlen] at this ⊢
            omega
          have := parse_path_loop_spec (strlen (path.take PATH_MAX)) st1 ⟨s, 0⟩ token
            (strtok_r (strtok_r (path.take PATH_MAX)).2).1
            (strtok_r (strtok_r (path.take PATH_MAX)).2).2 hfuel rfl
            (by
              intro hn
              by_contra hcon
              apply hchk
              refine ⟨hn, ?_⟩
              simp only [strlen, PATH_MAX, NAME_MAX] at hcon ⊢
              omega)
          rw [hc2, hs1.1] at this
          exact ⟨same_disk_trans hs1 this.1, this.2⟩

theorem walk_none_iff (st : filesys) (names : List cstr) :
    ∀ d, walk st d names = none ↔ walk_fails st d names := by
  induction names with
  | nil =>
    intro d
    simp [walk, walk_fails]
  | cons n ns ih =>
    intro d
    constructor
    · intro h
      rw [walk] at h
      cases hl : lookup st d n with
      | none => exact ⟨[], n, ns, d, rfl, rfl, Or.inl hl⟩
      | some e =>
        rw [hl] at h
        simp only at h
        by_cases hd : (st.disk e.inode_sector).is_dir = true
        · rw [if_pos hd] at h
          obtain ⟨pre, name, post, d1, hn, hw, hbad⟩ := (ih e.inode_sector).1 h
          refine ⟨n :: pre, name, post, d1, by simp [hn], ?_, hbad⟩
          rw [walk, hl]
          simp [hd, hw]
        · exact ⟨[], n, ns, d, rfl, rfl, Or.inr ⟨e, hl, by simpa using hd⟩⟩
    · rintro ⟨pre, name, post, d1, hn, hw, hbad⟩
      cases pre with
      | nil =>
        simp only [List.nil_append, List.cons.injEq] at hn
        obtain ⟨rfl, rfl⟩ := hn
        simp only [walk, Option.some.injEq] at hw
        subst hw
        rw [walk]
        rcases hbad with hb | ⟨e, he, hd⟩
        · simp [hb]
        · simp [he, hd]
      | cons p pre =>
        simp only [List.cons_append, List.cons.injEq] at hn
        obtain ⟨rfl, rfl⟩ := hn
        rw [walk] at hw ⊢
        cases hl : lookup st d n with
        | none => rfl
        | some e =>
          rw [hl] at hw
          simp only at hw ⊢
          by_cases hd : (st.disk e.inode_sector).is_dir = true
          · rw [if_pos hd] at hw ⊢
            exact (ih e.inode_sector).2 ⟨pre, name, post, d1, rfl, hw, hbad⟩
          · rw [if_neg hd]

theorem resolve_loop_walk (st : filesys) (rest : List cstr) :
    ∀ (d : block_sector_t) (t : cstr), (∀ c ∈ t :: rest, strlen c ≤ NAME_MAX) →
    resolve_loop st.disk d t rest =
      (walk st d (t :: rest).dropLast).map
        (fun s => (s, ((t :: rest).getLast?).getD ['.'])) := by
  induction rest with
  | nil =>
    intro d t _
    simp [resolve_loop, walk]
  | cons n rest ih =>
    intro d t h
    have ht : strlen t ≤ NAME_MAX := h t (by simp)
    have hn : strlen n ≤ NAME_MAX := h n (by simp)
    have hchk : ¬ (strlen t > NAME_MAX + 1 ∨ strlen n > NAME_MAX + 1) := by omega
    rw [resolve_loop, if_neg hchk]
    have hdl : (t :: n :: rest).dropLast = t :: (n :: rest).dropLast := by simp
    have hgl : (t :: n :: rest).getLast? = (n :: rest).getLast? := by simp [List.getLast?_cons_cons]
    rw [hdl, hgl, walk]
    simp only [lookup]
    cases (st.disk d).entries.find? (fun e => e.name = t) with
    | none => rfl
    | some e =>
      simp only
      by_cases hd : (st.disk e.inode_sector).is_dir = true
      · rw [if_pos hd, if_pos hd]
        exact ih e.inode_sector n (fun c hc => h c (by simp [List.mem_cons] at hc ⊢; tauto))
      · rw [if_neg hd, if_neg hd]
        rfl

theorem parse_path_walk (st : filesys) (path : cstr) (cwd : dir)
    (hne : path ≠ []) (hlen : strlen path < PATH_MAX)
    (hcomp : ∀ c ∈ components path, strlen c ≤ NAME_MAX)
    (hcwd : st.current_dir = some cwd) :
    (parse_path st path).2 =
      (walk st (if path.head? = some '/' then ROOT_DIR_SECTOR else cwd.inode)
        (components path).dropLast).map
        (fun s => ((⟨s, 0⟩ : dir), ((components path).getLast?).getD ['.'])) := by
  rw [(parse_path_spec st path).2]
  unfold resolve
  have htake : path.take PATH_MAX = path :=
    List.take_of_length_le (by simp only [strlen] at hlen; omega)
  have hstart : start_dir st path =
      some (if path.head? = some '/' then ROOT_DIR_SECTOR else cwd.inode) := by
    unfold start_dir
    split <;> simp [hcwd]
  rw [if_neg hne, hstart, htake]
  simp only
  cases hc : components path with
  | nil => simp [walk]
  | cons t rest =>
    rw [hc] at hcomp
    have ht : strlen t ≤ NAME_MAX := hcomp t (by simp)
    have hchk : ¬ (rest = [] ∧ strlen t > NAME_MAX + 1) := by
      intro h
      have := h.2
      omega
    simp only [if_neg hchk]
    rw [resolve_loop_walk st rest _ t hcomp, Option.map_map]
    rfl

/-- C1: for a non-empty path shorter than `PATH_MAX` whose components are all at most
`NAME_MAX` characters long, in any state with a current directory, `parse_path` fails exactly
when some non-final component is absent from the directory reached by the components before it
or names an object that is not a directory; otherwise it returns a handle on the directory
reached by walking the non-final components from the start directory (the root for a path that
begins with a separator, else the current directory) together with the final component as the
leaf (the leaf is `.` when the path has no component at all). -/
theorem parse_path_fails_iff_walk_fails (st : filesys) (path : cstr) (cwd : dir)
    (hne : path ≠ []) (hlen : strlen path < PATH_MAX)
    (hcomp : ∀ c ∈ components path, strlen c ≤ NAME_MAX)
    (hcwd : st.current_dir = some cwd) :
    ((parse_path st path).2 = none ↔
      walk_fails st (if path.head? = some '/' then ROOT_DIR_SECTOR else cwd.inode)
        (components path).dropLast) ∧
    (∀ d, walk st (if path.head? = some '/' then ROOT_DIR_SECTOR else cwd.inode)
        (components path).dropLast = some d →
      (parse_path st path).2 = some (⟨d, 0⟩, ((components path).getLast?).getD ['.'])) := by
  have h := parse_path_walk st path cwd hne hlen hcomp hcwd
  constructor
  · rw [h, ← walk_none_iff]
    simp
  · intro d hd
    rw [h, hd]
    rfl

theorem resolve_eq_tokens (st : filesys) (path : cstr) (hne : path ≠ []) :
    resolve st path =
      (start_dir st path).bind (fun s =>
        (resolve_tokens st.disk s (components (path.take PATH_MAX))).map
          (fun r => ((⟨r.1, 0⟩ : dir), r.2))) := by
  unfold resolve
  rw [if_neg hne]
  cases start_dir st path with
  | none => rfl
  | some s =>
    simp only [Option.some_bind]
    cases components (path.take PATH_MAX) with
    | nil => rfl
    | cons t rest =>
      simp only [resolve_tokens]
      split <;> rfl

theorem split_slash_append (a b : cstr) :
    split_slash (a ++ '/' :: b) = split_slash a ++ split_slash b := by
  induction a with
  | nil => simp [split_slash]
  | cons c a ih =>
    simp only [List.cons_append]
    rw [split_slash, split_slash, ih]
    by_cases hc : c = '/'
    · simp [hc]
    · simp only [hc, if_false]
      cases h : split_slash a with
      | nil => exact absurd h (split_slash_ne_nil a)
      | cons q qs => simp

theorem components_append (a b : cstr) :
    components (a ++ '/' :: b) = components a ++ components b := by
  simp [components, split_slash_append]

theorem components_append_slash (p : cstr) : components (p ++ ['/']) = components p := by
  rw [components_append, components_nil, List.append_nil]

theorem components_all_slash (p : cstr) (h : ∀ c ∈ p, c = '/') : components p = [] := by
  induction p with
  | nil => exact components_nil
  | cons c p ih =>
    have hc : c = '/' := h c (by simp)
    subst hc
    rw [components_slash]
    exact ih (fun x hx => h x (by simp [hx]))

/-- C3 (as amended): a non-empty path made of separators only yields the leaf `.` and a handle
on the root directory, which is the directory such a path names; on any other path a trailing
separator is ignored, so that `parse_path` returns for it what it returns for the path without
that separator (the containing directory and the last component as leaf). -/
theorem parse_path_trailing_slash (st : filesys) (path : cstr) (hne : path ≠ []) :
    ((∀ c ∈ path, c = '/') →
      (parse_path st path).2 = some (⟨ROOT_DIR_SECTOR, 0⟩, ['.'])) ∧
    (parse_path st (path ++ ['/'])).2 = (parse_path st path).2 := by
  constructor
  · intro hall
    rw [(parse_path_spec st path).2, resolve_eq_tokens st path hne]
    have hhead : path.head? = some '/' := by
      cases path with
      | nil => exact absurd rfl hne
      | cons c cs => simp [hall c (by simp)]
    have hcomp : components (path.take PATH_MAX) = [] :=
      components_all_slash _ (fun c hc => hall c (List.mem_of_mem_take hc))
    simp [start_dir, hhead, hcomp, resolve_tokens]
  · have hne2 : path ++ ['/'] ≠ [] := by simp
    rw [(parse_path_spec st _).2, (parse_path_spec st path).2,
      resolve_eq_tokens st _ hne2, resolve_eq_tokens st path hne]
    have hstart : start_dir st (path ++ ['/']) = start_dir st path := by
      cases path with
      | nil => exact absurd rfl hne
      | cons c cs => simp [start_dir]
    have hcomp : components ((path ++ ['/']).take PATH_MAX) = components (path.take PATH_MAX) := by
      by_cases hl : path.length < PATH_MAX
      · have h1 : (path ++ ['/']).take PATH_MAX = path ++ ['/'] :=
          List.take_of_length_le (by simp; omega)
        have h2 : path.take PATH_MAX = path := List.take_of_length_le (by omega)
        rw [h1, h2, components_append_slash]
      · rw [List.take_append_of_le_length (by omega)]
    rw [hstart, hcomp]

/-- C4: for a path that begins with a separator, the outcome of `parse_path` (failure, or the
containing directory and leaf returned) is the same whatever the caller's current directory
is, the rest of the file-system state being the same. -/
theorem parse_path_absolute_ignores_current_dir (st : filesys) (path : cstr)
    (d1 d2 : Option dir) (habs : path.head? = some '/') :
    (parse_path { st with current_dir := d1 } path).2 =
      (parse_path { st with current_dir := d2 } path).2 := by
  have hne : path ≠ [] := by
    intro h
    rw [h] at habs
    simp at habs
  rw [(parse_path_spec _ path).2, (parse_path_spec _ path).2,
    resolve_eq_tokens _ path hne, resolve_eq_tokens _ path hne]
  simp [start_dir, habs]

theorem resolve_loop_long_token (disk : block_sector_t → inode_disk) (d : block_sector_t)
    (t : cstr) (rest : List cstr) (hrest : rest ≠ []) (ht : strlen t > NAME_MAX + 1) :
    resolve_loop disk d t rest = none := by
  cases rest with
  | nil => exact absurd rfl hrest
  | cons n r =>
    rw [resolve_loop, if_pos (Or.inl ht)]

theorem resolve_loop_descend (st : filesys) (tok : cstr) (rest : List cstr)
    (target : block_sector_t) (names : List cstr) :
    ∀ (d : block_sector_t) (a : cstr), (∀ c ∈ a :: names, strlen c ≤ NAME_MAX) →
    walk st d (a :: names) = some target →
    resolve_loop st.disk d a (names ++ tok :: rest) =
      resolve_tokens st.disk target (tok :: rest) := by
  induction names with
  | nil =>
    intro d a hlen hwalk
    have ha : strlen a ≤ NAME_MAX := hlen a (by simp)
    rw [walk] at hwalk
    simp only [List.nil_append]
    rw [resolve_loop]
    simp only [lookup] at hwalk
    cases hf : (st.disk d).entries.find? (fun e => e.name = a) with
    | none => rw [hf] at hwalk; simp at hwalk
    | some e =>
      rw [hf] at hwalk
      simp only at hwalk
      by_cases hd : (st.disk e.inode_sector).is_dir = true
      · rw [if_pos hd] at hwalk
        simp only [walk, Option.some.injEq] at hwalk
        subst hwalk
        simp only [hd, if_true, resolve_tokens]
        by_cases htok : strlen tok > NAME_MAX + 1
        · rw [if_pos (Or.inr htok)]
          by_cases hr : rest = []
          · rw [if_pos ⟨hr, htok⟩]
          · rw [if_neg (fun h => hr h.1), resolve_loop_long_token _ _ _ _ hr htok]
        · rw [if_neg (by omega), if_neg (fun h => htok h.2)]
      · rw [if_neg hd] at hwalk
        simp at hwalk
  | cons b names ih =>
    intro d a hlen hwalk
    have ha : strlen a ≤ NAME_MAX := hlen a (by simp)
    have hb : strlen b ≤ NAME_MAX := hlen b (by simp)
    rw [walk] at hwalk
    simp only [List.cons_append]
    rw [resolve_loop, if_neg (by omega)]
    simp only [lookup] at hwalk
    cases hf : (st.disk d).entries.find? (fun e => e.name = a) with
    | none => rw [hf] at hwalk; simp at hwalk
    | some e =>
      rw [hf] at hwalk
      simp only at hwalk ⊢
      by_cases hd : (st.disk e.inode_sector).is_dir = true
      · rw [if_pos hd] at hwalk
        rw [if_pos hd]
        exact ih e.inode_sector b (fun c hc => hlen c (by simp at hc ⊢; tauto)) hwalk
      · rw [if_neg hd] at hwalk
        simp at hwalk

theorem resolve_tokens_descend (st : filesys) (tok : cstr) (rest : List cstr)
    (d target : block_sector_t) (names : List cstr)
    (hlen : ∀ c ∈ names, strlen c ≤ NAME_MAX) (hwalk : walk st d names = some target) :
    resolve_tokens st.disk d (names ++ tok :: rest) =
      resolve_tokens st.disk target (tok :: rest) := by
  cases names with
  | nil =>
    simp only [walk, Option.some.injEq] at hwalk
    subst hwalk
    rfl
  | cons a names =>
    simp only [List.cons_append]
    rw [resolve_tokens, if_neg (by simp)]
    exact resolve_loop_descend st tok rest target names d a hlen hwalk

theorem components_relative_ne_nil (p : cstr) (hne : p ≠ []) (hrel : p.head? ≠ some '/') :
    components p ≠ [] := by
  cases p with
  | nil => exact absurd rfl hne
  | cons c cs =>
    have hc : c ≠ '/' := by simpa using hrel
    rw [components_token c cs hc]
    simp

/-- C5 (as amended): let the current directory `cwd` be reached from the root by the absolute
path `abs`, all of whose components are at most `NAME_MAX` characters long, and let `p` be a
relative path such that `abs + "/" + p` is shorter than `PATH_MAX`.  Then `parse_path (p)`
with current directory `cwd` has the same outcome (failure, or the same containing directory
and the same leaf) as `parse_path (abs + "/" + p)`, which starts from the root. -/
theorem parse_path_relative_eq_absolute (st : filesys) (cwd : dir) (abs p : cstr)
    (hcwd : st.current_dir = some cwd)
    (hp : p ≠ []) (hrel : p.head? ≠ some '/')
    (habs : abs.head? = some '/')
    (hreach : walk st ROOT_DIR_SECTOR (components abs) = some cwd.inode)
    (hnames : ∀ c ∈ components abs, strlen c ≤ NAME_MAX)
    (hlen : strlen (abs ++ ['/'] ++ p) < PATH_MAX) :
    (parse_path st p).2 = (parse_path st (abs ++ ['/'] ++ p)).2 := by
  have hq : abs ++ ['/'] ++ p ≠ [] := by
    cases abs <;> simp
  have hqhead : (abs ++ ['/'] ++ p).head? = some '/' := by
    cases abs with
    | nil => simp at habs
    | cons c cs => simpa using habs
  simp only [strlen, List.length_append, List.length_singleton] at hlen
  have htq : (abs ++ ['/'] ++ p).take PATH_MAX = abs ++ ['/'] ++ p :=
    List.take_of_length_le (by simp; omega)
  have htp : p.take PATH_MAX = p := List.take_of_length_le (by omega)
  rw [(parse_path_spec st p).2, (parse_path_spec st _).2,
    resolve_eq_tokens st p hp, resolve_eq_tokens st _ hq, htq, htp]
  have hs1 : start_dir st p = some cwd.inode := by
    simp [start_dir, hrel, hcwd]
  have hs2 : start_dir st (abs ++ ['/'] ++ p) = some ROOT_DIR_SECTOR := by
    simp only [start_dir, hqhead, if_true]
  rw [hs1, hs2]
  simp only [Option.some_bind]
  have hcq : components (abs ++ ['/'] ++ p) = components abs ++ components p := by
    rw [List.append_assoc, List.singleton_append, components_append]
  rw [hcq]
  cases hcp : components p with
  | nil => exact absurd hcp (components_relative_ne_nil p hp hrel)
  | cons tok rest =>
    rw [resolve_tokens_descend st tok rest ROOT_DIR_SECTOR cwd.inode (components abs) hnames hreach]

theorem inv_refl (st : filesys) : inv st st [] :=
  ⟨rfl, fun _ h1 h2 => ⟨h1, h2, by simp⟩⟩

theorem inv_mono {st0 st : filesys} {hs hs1 : List block_sector_t} (h : inv st0 st hs)
    (hc : ∀ s, hs1.count s ≤ hs.count s) : inv st0 st hs1 :=
  ⟨h.1, fun s h1 h2 => by
    obtain ⟨a, b, c⟩ := h.2 s h1 h2
    have := hc s
    exact ⟨a, b, by omega⟩⟩

theorem inv_open {st0 st : filesys} {hs : List block_sector_t} (h : inv st0 st hs)
    (s : block_sector_t) : inv st0 (inode_open st s).1 (s :: hs) := by
  unfold inode_open
  by_cases hz : st.open_cnt s = 0
  · rw [if_pos hz]
    refine ⟨h.1, fun x h1 h2 => ?_⟩
    simp only [upd] at h1 h2
    by_cases hx : x = s
    · simp [hx] at h2
    · simp only [hx, if_false] at h1 h2
      obtain ⟨a, b, c⟩ := h.2 x h1 h2
      refine ⟨a, b, ?_⟩
      simp only [upd, hx, if_false]
      rw [List.count_cons_of_ne hx]
      exact c
  · rw [if_neg hz]
    refine ⟨h.1, fun x h1 h2 => ?_⟩
    simp only [upd] at h1 h2 ⊢
    by_cases hx : x = s
    · subst hx
      simp only [if_true] at h1 ⊢
      obtain ⟨a, b, c⟩ := h.2 x (by omega) h2
      refine ⟨a, b, ?_⟩
      rw [List.count_cons_self]
      omega
    · simp only [hx, if_false] at h1 ⊢
      obtain ⟨a, b, c⟩ := h.2 x h1 h2
      refine ⟨a, b, ?_⟩
      rw [List.count_cons_of_ne hx]
      exact c

theorem inv_reopen {st0 st : filesys} {hs : List block_sector_t} (h : inv st0 st hs)
    (s : block_sector_t) : inv st0 (inode_reopen st s).1 (s :: hs) := by
  unfold inode_reopen
  by_cases hz : st.open_cnt s = 0
  · rw [if_pos hz]
    refine ⟨h.1, fun x h1 h2 => ?_⟩
    simp only at h1 h2 ⊢
    obtain ⟨a, b, c⟩ := h.2 x h1 h2
    refine ⟨a, b, ?_⟩
    have hx : x ≠ s := by
      intro hx
      rw [hx] at h1
      omega
    rw [List.count_cons_of_ne hx]
    exact c
  · rw [if_neg hz]
    refine ⟨h.1, fun x h1 h2 => ?_⟩
    simp only [upd] at h1 h2 ⊢
    by_cases hx : x = s
    · subst hx
      simp only [if_true] at h1 ⊢
      obtain ⟨a, b, c⟩ := h.2 x (by omega) h2
      refine ⟨a, b, ?_⟩
      rw [List.count_cons_self]
      omega
    · simp only [hx, if_false] at h1 ⊢
      obtain ⟨a, b, c⟩ := h.2 x h1 h2
      refine ⟨a, b, ?_⟩
      rw [List.count_cons_of_ne hx]
      exact c

theorem inv_close {st0 st : filesys} {hs : List block_sector_t} (x : block_sector_t)
    (h : inv st0 st (x :: hs)) : inv st0 (inode_close st x) hs := by
  unfold inode_close
  by_cases hz : st.open_cnt x = 0
  · rw [if_pos hz]
    exact inv_mono h (fun s => List.count_le_count_cons _ _ _)
  · rw [if_neg hz]
    by_cases h1 : st.open_cnt x = 1
    · rw [if_pos h1]
      by_cases hr : st.removed x = true
      · exfalso
        obtain ⟨a, _, c⟩ := h.2 x (by omega) hr
        rw [List.count_cons_self] at c
        omega
      · rw [if_neg hr]
        refine ⟨h.1, fun s hs1 hs2 => ?_⟩
        simp only [upd] at hs1 hs2 ⊢
        by_cases hx : s = x
        · simp [hx] at hs1
        · simp only [hx, if_false] at hs1 ⊢
          obtain ⟨a, b, c⟩ := h.2 s hs1 hs2
          rw [List.count_cons_of_ne hx] at c
          exact ⟨a, b, c⟩
    · rw [if_neg h1]
      refine ⟨h.1, fun s hs1 hs2 => ?_⟩
      simp only [upd] at hs1 hs2 ⊢
      by_cases hx : s = x
      · subst hx
        simp only [if_true] at hs1 ⊢
        obtain ⟨a, b, c⟩ := h.2 s (by omega) hs2
        rw [List.count_cons_self] at c
        exact ⟨a, b, by omega⟩
      · simp only [hx, if_false] at hs1 ⊢
        obtain ⟨a, b, c⟩ := h.2 s hs1 hs2
        rw [List.count_cons_of_ne hx] at c
        exact ⟨a, b, c⟩

theorem inv_perm {st0 st : filesys} {hs hs1 : List block_sector_t} (h : inv st0 st hs)
    (hp : hs.Perm hs1) : inv st0 st hs1 :=
  inv_mono h (fun s => le_of_eq (hp.count_eq s).symm)

theorem dir_lookup_inv {st0 st : filesys} {hs : List block_sector_t} (h : inv st0 st hs)
    (d : dir) (name : cstr) :
    inv st0 (dir_lookup st d name).1
      (match (dir_lookup st d name).2 with
       | none => hs
       | some i => i :: hs) := by
  unfold dir_lookup
  cases lookup st d.inode name with
  | none => exact h
  | some e =>
    simp only [inode_open_snd]
    exact inv_open h _

theorem parse_path_loop_inv (st0 : filesys) (fuel : Nat) : ∀ (st : filesys) (d : dir)
    (token : cstr) (next : Option cstr) (save : cstr), inv st0 st [d.inode] →
    inv st0 (parse_path_loop fuel st d token next save).1
      (held (parse_path_loop fuel st d token next save).2) := by
  induction fuel with
  | zero =>
    intro st d token next save h
    cases next with
    | none => simpa [parse_path_loop, held] using h
    | some n =>
      simp only [parse_path_loop, held]
      exact inv_mono h (by simp)
  | succ fuel ih =>
    intro st d token next save h
    cases next with
    | none => simpa [parse_path_loop, held] using h
    | some n =>
      rw [parse_path_loop]
      by_cases hchk : strlen token > NAME_MAX + 1 ∨ strlen n > NAME_MAX + 1
      · simp only [hchk, if_true, held, dir_close]
        exact inv_close _ h
      · simp only [hchk, if_false]
        have hl := dir_lookup_inv h d token
        rcases hlk : dir_lookup st d token with ⟨st1, oi⟩
        rw [hlk] at hl
        cases oi with
        | none =>
          simp only [held, dir_close] at hl ⊢
          exact inv_close _ hl
        | some i =>
          simp only [dir_close] at hl ⊢
          have h2 : inv st0 (inode_close st1 d.inode) [i] :=
            inv_close _ (inv_perm hl (List.Perm.swap _ _ _))
          by_cases hd : inode_is_dir (inode_close st1 d.inode) i = true
          · simp only [hd, Bool.not_true, Bool.false_eq_true, if_false, dir_open]
            exact ih _ ⟨i, 0⟩ _ _ _ h2
          · simp only [hd, Bool.not_false, if_true, held]
            exact inv_mono h2 (by simp)

theorem parse_path_inv (st : filesys) (path : cstr) :
    inv st (parse_path st path).1 (held (parse_path st path).2) := by
  unfold parse_path
  by_cases hp : strlen path = 0
  · simp only [hp, if_true, held]
    exact inv_refl st
  · simp only [hp, if_false]
    have hstart : ∃ r : filesys × Option dir,
        (if (strlcpy [] path (PATH_MAX + 1)).head? = some '/' then dir_open_root st
          else dir_reopen st st.current_dir) = r ∧
        inv st r.1 (match r.2 with | none => [] | some d => [d.inode]) := by
      refine ⟨_, rfl, ?_⟩
      split
      · simp only [dir_open_root, dir_open, inode_open_snd]
        exact inv_open (inv_refl st) _
      · cases st.current_dir with
        | none => exact inv_refl st
        | some d =>
          simp only [dir_reopen, dir_open, inode_reopen_snd]
          exact inv_reopen (inv_refl st) _
    obtain ⟨⟨st1, od⟩, hr, hinv⟩ := hstart
    rw [hr]
    cases od with
    | none => exact hinv
    | some d =>
      simp only at hinv ⊢
      cases (strtok_r (strlcpy [] path (PATH_MAX + 1))).1 with
      | none => exact hinv
      | some token =>
        simp only
        split
        · simp only [held, dir_close]
          exact inv_close _ hinv
        · exact parse_path_loop_inv st _ _ _ _ _ _ hinv

theorem free_map_allocate_none (st : filesys) (h : (free_map_allocate st).2 = none) :
    (free_map_allocate st).1 = st := by
  unfold free_map_allocate at h ⊢
  cases hf : (List.range st.fs_size).find? (fun s => !st.free_map s) with
  | none => rfl
  | some s => rw [hf] at h; simp at h

theorem free_map_allocate_some (st : filesys) (s : block_sector_t)
    (h : (free_map_allocate st).2 = some s) :
    s < st.fs_size ∧ st.free_map s = false ∧
    (free_map_allocate st).1 = { st with free_map := upd st.free_map s true } := by
  unfold free_map_allocate at h ⊢
  cases hf : (List.range st.fs_size).find? (fun s => !st.free_map s) with
  | none => rw [hf] at h; simp at h
  | some x =>
    rw [hf] at h
    simp only [Option.some.injEq] at h
    subst h
    have h1 := List.find?_some hf
    have h2 := List.mem_of_find?_eq_some hf
    exact ⟨List.mem_range.1 h2, by simpa using h1, rfl⟩

theorem free_map_allocate_exists (st : filesys) (s : block_sector_t) (hs : s < st.fs_size)
    (hfree : st.free_map s = false) : ∃ x, (free_map_allocate st).2 = some x := by
  unfold free_map_allocate
  cases hf : (List.range st.fs_size).find? (fun s => !st.free_map s) with
  | none =>
    rw [List.find?_eq_none] at hf
    have := hf s (List.mem_range.2 hs)
    simp [hfree] at this
  | some x => exact ⟨x, rfl⟩

theorem dir_add_false (st : filesys) (d : dir) (name : cstr) (s : block_sector_t)
    (h : (dir_add st d name s).2 = false) : (dir_add st d name s).1 = st := by
  unfold dir_add at h ⊢
  by_cases h1 : name = [] ∨ strlen name > NAME_MAX
  · rw [if_pos h1]
  · rw [if_neg h1] at h ⊢
    by_cases h2 : (lookup st d.inode name).isSome = true
    · rw [if_pos h2]
    · rw [if_neg h2] at h ⊢
      by_cases h3 : (st.disk d.inode).entries.length < (st.disk d.inode).length / DIR_ENTRY_SIZE
      · rw [if_pos h3] at h
        simp at h
      · rw [if_neg h3]

theorem upd_upd_self {α : Type} (f : block_sector_t → α) (k : block_sector_t) (v : α)
    (h : f k = v) (w : α) : upd (upd f k w) k v = f := by
  funext x
  simp only [upd]
  split
  · next hx => rw [hx, h]
  · rfl

/-- C9: when sector 0 (the free map's own sector) is in use, a call of `filesys_create` that
returns false leaves the free map as it was and leaves the object stored at every sector in
use, and so every directory's contents, unchanged; and the call does return false when the leaf
is already present in the containing directory (stored at a sector in use). -/
theorem filesys_create_failure_allocates_nothing (st : filesys) (path : cstr) (n : Nat)
    (h0 : st.free_map FREE_MAP_SECTOR = true) :
    ((filesys_create st path n).2 = false →
      (filesys_create st path n).1.free_map = st.free_map ∧
      ∀ s, st.free_map s = true → (filesys_create st path n).1.disk s = st.disk s) ∧
    (∀ (d : dir) (leaf : cstr), (parse_path st path).2 = some (d, leaf) →
      st.free_map d.inode = true → (lookup st d.inode leaf).isSome = true →
      (filesys_create st path n).2 = false) := by
  have hsame := (parse_path_spec st path).1
  have hinv := parse_path_inv st path
  unfold filesys_create
  rcases hpp : parse_path st path with ⟨st1, r⟩
  rw [hpp] at hsame hinv
  simp only at hsame hinv
  cases r with
  | none =>
    simp only [dir_close]
    exact ⟨fun _ => ⟨hinv.1, fun s _ => by rw [hsame.1]⟩, fun d leaf h => by simp at h⟩
  | some r =>
    obtain ⟨dir, file_name⟩ := r
    simp only [held] at hinv
    simp only
    rcases hal : free_map_allocate st1 with ⟨st2, os⟩
    cases os with
    | none =>
      have hst2 : st2 = st1 := by
        have := free_map_allocate_none st1 (by rw [hal])
        rw [hal] at this
        exact this
      subst hst2
      simp only [dir_close]
      refine ⟨fun _ => ⟨(inv_close _ hinv).1, fun s _ => ?_⟩, fun _ _ _ _ _ => trivial⟩
      rw [(inode_close_same st2 dir.inode).1, hsame.1]
    | some s =>
      obtain ⟨hs, hfree, hst2⟩ := free_map_allocate_some st1 s (by rw [hal])
      rw [hal] at hst2
      subst hst2
      have hs0 : s ≠ 0 := by
        intro h
        rw [h, hinv.1] at hfree
        simp only [FREE_MAP_SECTOR] at h0
        rw [h0] at hfree
        exact absurd hfree (by simp)
      simp only [inode_create, if_true]
      constructor
      · intro hfail
        have hst := dir_add_false _ _ _ _ hfail
        rw [hst]
        simp only [hfail, Bool.not_false, ne_eq, hs0, not_false_eq_true, and_self, if_true,
          free_map_release, dir_close]
        have hfm : upd (upd st1.free_map s true) s false = st1.free_map :=
          upd_upd_self _ _ _ hfree _
        have hinv2 : inv st
            { fs_size := st1.fs_size, free_map := upd (upd st1.free_map s true) s false,
              disk := upd st1.disk s ⟨n, false, []⟩, open_cnt := st1.open_cnt,
              removed := st1.removed, current_dir := st1.current_dir } [dir.inode] := by
          refine ⟨?_, hinv.2⟩
          simp only [hfm]
          exact hinv.1
        refine ⟨(inv_close _ hinv2).1, fun x hx => ?_⟩
        rw [(inode_close_same _ dir.inode).1]
        have hxs : x ≠ s := by
          intro h
          rw [h, ← hinv.1, hfree] at hx
          exact absurd hx (by simp)
        simp only [upd, hxs, if_false]
        rw [hsame.1]
      · intro d leaf hres hused hex
        simp only [Option.some.injEq, Prod.mk.injEq] at hres
        obtain ⟨rfl, rfl⟩ := hres
        have hds : dir.inode ≠ s := by
          intro h
          rw [h, ← hinv.1, hfree] at hused
          exact absurd hused (by simp)
        have hlk : (lookup
            { fs_size := st1.fs_size, free_map := upd st1.free_map s true,
              disk := upd st1.disk s ⟨n, false, []⟩, open_cnt := st1.open_cnt,
              removed := st1.removed, current_dir := st1.current_dir } dir.inode
            file_name).isSome = true := by
          simp only [lookup, upd, hds, if_false]
          rw [hsame.1]
          exact hex
        have : (dir_add
            { fs_size := st1.fs_size, free_map := upd st1.free_map s true,
              disk := upd st1.disk s ⟨n, false, []⟩, open_cnt := st1.open_cnt,
              removed := st1.removed, current_dir := st1.current_dir } dir file_name s).2 =
            false := by
          unfold dir_add
          by_cases h1 : file_name = [] ∨ strlen file_name > NAME_MAX
          · rw [if_pos h1]
          · rw [if_neg h1, if_pos hlk]
        simp only [this]

/-- C10: when `path` resolves (through `parse_path` and the lookup of the leaf) to a directory
whose inode is the inode of the caller's current directory, `filesys_remove (path)` returns
false and leaves the disk, and with it the directory entry, as it was; nothing is assumed on
the directory being empty or not. -/
theorem filesys_remove_current_dir_fails (st : filesys) (path : cstr) (cwd d : dir)
    (leaf : cstr) (e : dir_entry)
    (hcwd : st.current_dir = some cwd)
    (hres : (parse_path st path).2 = some (d, leaf))
    (hlk : lookup st d.inode leaf = some e)
    (hcur : e.inode_sector = cwd.inode)
    (hdir : inode_is_dir st e.inode_sector = true) :
    (filesys_remove st path).2 = false ∧
    lookup (filesys_remove st path).1 d.inode leaf = some e ∧
    (filesys_remove st path).1.disk = st.disk := by
  have hsame := (parse_path_spec st path).1
  have key : (filesys_remove st path).2 = false ∧ same_disk st (filesys_remove st path).1 := by
    unfold filesys_remove
    rcases hpp : parse_path st path with ⟨st1, r⟩
    rw [hpp] at hsame hres
    simp only at hsame hres
    subst hres
    simp only
    have hl1 := dir_lookup_same st1 d leaf
    have hl2 := dir_lookup_snd st1 d leaf
    rw [lookup_same hsame, hlk] at hl2
    rcases hdl : dir_lookup st1 d leaf with ⟨st2, oi⟩
    rw [hdl] at hl1 hl2
    simp only [Option.map_some'] at hl1 hl2
    subst hl2
    simp only
    have hs2 : same_disk st st2 := same_disk_trans hsame hl1
    have hd2 : inode_is_dir st2 e.inode_sector = true := by
      simp only [inode_is_dir, hs2.1] at hdir ⊢
      exact hdir
    have hc2 : st2.current_dir = some cwd := by rw [hs2.2.2, hcwd]
    rw [hcur] at hd2
    simp only [hcur, hd2, if_true, hc2, dir_get_inode]
    exact ⟨trivial, same_disk_trans hs2 (dir_close_same _ _)⟩
  exact ⟨key.1, by rw [lookup_same key.2, hlk], key.2.1⟩

theorem consistent_entries {st : filesys} (h : consistent st = true) {s : block_sector_t}
    (hs : in_use st s = true) {e : dir_entry} (he : e ∈ (st.disk s).entries) :
    in_use st e.inode_sector = true := by
  simp only [consistent, Bool.and_eq_true, List.all_eq_true, List.mem_range,
    Bool.or_eq_true, Bool.not_eq_true'] at h
  simp only [in_use, Bool.and_eq_true, decide_eq_true_eq] at hs
  rcases h.2 s hs.1 with hf | hall
  · rw [hs.2] at hf
    exact absurd hf (by simp)
  · exact hall e he

theorem consistent_start {st : filesys} (h : consistent st = true) {path : cstr}
    {s : block_sector_t} (hs : start_dir st path = some s) : in_use st s = true := by
  simp only [consistent, Bool.and_eq_true] at h
  unfold start_dir at hs
  split at hs
  · simp only [Option.some.injEq] at hs
    rw [← hs]
    exact h.1.1.2
  · cases hc : st.current_dir with
    | none => rw [hc] at hs; simp at hs
    | some d =>
      rw [hc] at hs
      simp only [Option.map_some', Option.some.injEq] at hs
      have := h.1.2
      rw [hc] at this
      rw [← hs]
      exact this

theorem resolve_loop_stable (st : filesys) (disk2 : block_sector_t → inode_disk)
    (hcons : consistent st = true)
    (hext : ∀ x, in_use st x = true → (disk2 x).is_dir = (st.disk x).is_dir ∧
      ∀ name e, (st.disk x).entries.find? (fun e => e.name = name) = some e →
        (disk2 x).entries.find? (fun e => e.name = name) = some e)
    (rest : List cstr) : ∀ (d : block_sector_t) (t : cstr) (r : block_sector_t × cstr),
    in_use st d = true → resolve_loop st.disk d t rest = some r →
    resolve_loop disk2 d t rest = some r ∧ in_use st r.1 = true ∧ r.2 ∈ t :: rest := by
  induction rest with
  | nil =>
    intro d t r hd h
    simp only [resolve_loop, Option.some.injEq] at h ⊢
    subst h
    exact ⟨rfl, hd, by simp⟩
  | cons n rest ih =>
    intro d t r hd h
    rw [resolve_loop] at h ⊢
    by_cases hchk : strlen t > NAME_MAX + 1 ∨ strlen n > NAME_MAX + 1
    · rw [if_pos hchk] at h
      simp at h
    · rw [if_neg hchk] at h ⊢
      cases hf : (st.disk d).entries.find? (fun e => e.name = t) with
      | none => rw [hf] at h; simp at h
      | some e =>
        rw [hf] at h
        simp only at h
        rw [(hext d hd).2 t e hf]
        simp only
        have he : in_use st e.inode_sector = true :=
          consistent_entries hcons hd (List.mem_of_find?_eq_some hf)
        rw [(hext _ he).1]
        by_cases hdir : (st.disk e.inode_sector).is_dir = true
        · rw [if_pos hdir] at h ⊢
          obtain ⟨a, b, c⟩ := ih e.inode_sector n r he h
          exact ⟨a, b, List.mem_cons_of_mem _ c⟩
        · rw [if_neg hdir] at h
          simp at h

theorem resolve_tokens_stable (st : filesys) (disk2 : block_sector_t → inode_disk)
    (hcons : consistent st = true)
    (hext : ∀ x, in_use st x = true → (disk2 x).is_dir = (st.disk x).is_dir ∧
      ∀ name e, (st.disk x).entries.find? (fun e => e.name = name) = some e →
        (disk2 x).entries.find? (fun e => e.name = name) = some e)
    (comps : List cstr) (hne : ∀ c ∈ comps, c ≠ []) (d : block_sector_t)
    (r : block_sector_t × cstr) (hd : in_use st d = true)
    (h : resolve_tokens st.disk d comps = some r) :
    resolve_tokens disk2 d comps = some r ∧ in_use st r.1 = true ∧ r.2 ≠ [] := by
  cases comps with
  | nil =>
    simp only [resolve_tokens, Option.some.injEq] at h ⊢
    subst h
    exact ⟨rfl, hd, by simp⟩
  | cons t rest =>
    simp only [resolve_tokens] at h ⊢
    by_cases hc : rest = [] ∧ strlen t > NAME_MAX + 1
    · rw [if_pos hc] at h
      simp at h
    · rw [if_neg hc] at h ⊢
      obtain ⟨a, b, c⟩ := resolve_loop_stable st disk2 hcons hext rest d t r hd h
      exact ⟨a, b, hne _ c⟩

theorem components_ne_nil (p : cstr) : ∀ c ∈ components p, c ≠ [] := by
  intro c hc
  simp only [components, List.mem_filter, decide_eq_true_eq] at hc
  simpa using hc.2

theorem parse_path_some (st : filesys) (path : cstr) (d : dir) (leaf : cstr)
    (h : (parse_path st path).2 = some (d, leaf)) :
    path ≠ [] ∧ ∃ s0, start_dir st path = some s0 ∧
      resolve_tokens st.disk s0 (components (path.take PATH_MAX)) = some (d.inode, leaf) ∧
      d = ⟨d.inode, 0⟩ := by
  rw [(parse_path_spec st path).2] at h
  have hne : path ≠ [] := by
    intro hp
    rw [hp] at h
    simp [resolve] at h
  rw [resolve_eq_tokens st path hne] at h
  refine ⟨hne, ?_⟩
  cases hs : start_dir st path with
  | none => rw [hs] at h; simp at h
  | some s0 =>
    rw [hs] at h
    simp only [Option.some_bind] at h
    cases hr : resolve_tokens st.disk s0 (components (path.take PATH_MAX)) with
    | none => rw [hr] at h; simp at h
    | some r =>
      rw [hr] at h
      simp only [Option.map_some', Option.some.injEq, Prod.mk.injEq] at h
      obtain ⟨h1, h2⟩ := h
      subst h1 h2
      exact ⟨s0, rfl, hr, rfl⟩

theorem dir_add_ok (st : filesys) (d : dir) (name : cstr) (s : block_sector_t)
    (h1 : name ≠ []) (h2 : strlen name ≤ NAME_MAX) (h3 : lookup st d.inode name = none)
    (h4 : (st.disk d.inode).entries.length < (st.disk d.inode).length / DIR_ENTRY_SIZE) :
    dir_add st d name s =
      (set_entries st d.inode ((st.disk d.inode).entries ++ [⟨s, name⟩]), true) := by
  unfold dir_add
  rw [if_neg (by intro h; rcases h with h | h; exact h1 h; omega), if_neg (by simp [h3]),
    if_pos h4]

theorem in_use_free_map {st : filesys} {s : block_sector_t} (h : in_use st s = true) :
    st.free_map s = true := by
  simp only [in_use, Bool.and_eq_true] at h
  exact h.2

theorem filesys_create_succeeds (st : filesys) (path : cstr) (n : Nat) (d : dir) (leaf : cstr)
    (hres : (parse_path st path).2 = some (d, leaf))
    (hused : in_use st d.inode = true)
    (hne : leaf ≠ []) (hleaf : strlen leaf ≤ NAME_MAX)
    (hnew : lookup st d.inode leaf = none)
    (hfree : ∃ s, s < st.fs_size ∧ st.free_map s = false)
    (hslot : (st.disk d.inode).entries.length < (st.disk d.inode).length / DIR_ENTRY_SIZE) :
    ∃ s, st.free_map s = false ∧ (filesys_create st path n).2 = true ∧
      (filesys_create st path n).1.disk = disk_after_create st d leaf n s ∧
      (filesys_create st path n).1.current_dir = st.current_dir := by
  have hsame := (parse_path_spec st path).1
  have hinv := parse_path_inv st path
  unfold filesys_create
  rcases hpp : parse_path st path with ⟨st1, r⟩
  rw [hpp] at hsame hinv hres
  simp only at hsame hinv hres
  subst hres
  simp only
  obtain ⟨s0, hs0, hf0⟩ := hfree
  obtain ⟨s, hal2⟩ := free_map_allocate_exists st1 s0 (by rw [hsame.2.1]; exact hs0)
    (by rw [hinv.1]; exact hf0)
  obtain ⟨hs, hsfree, hst2⟩ := free_map_allocate_some st1 s hal2
  rcases hal : free_map_allocate st1 with ⟨st2, os⟩
  rw [hal] at hal2 hst2
  simp only at hal2 hst2
  subst hal2 hst2
  have hsf : st.free_map s = false := by rw [← hinv.1]; exact hsfree
  have hds : d.inode ≠ s := by
    intro h
    have := in_use_free_map hused
    rw [h, hsf] at this
    exact absurd this (by simp)
  simp only [inode_create, if_true]
  have hadd := dir_add_ok
    { fs_size := st1.fs_size, free_map := upd st1.free_map s true,
      disk := upd st1.disk s ⟨n, false, []⟩, open_cnt := st1.open_cnt,
      removed := st1.removed, current_dir := st1.current_dir } d leaf s hne hleaf
    (by simp only [lookup, upd, hds, if_false]; rw [hsame.1]; exact hnew)
    (by simp only [upd, hds, if_false]; rw [hsame.1]; exact hslot)
  rw [hadd]
  simp only [Bool.not_true, Bool.false_eq_true, false_and, if_false]
  refine ⟨s, hsf, trivial, ?_, ?_⟩
  · rw [(dir_close_same _ _).1]
    simp only [set_entries, disk_after_create, upd, hds, if_false]
    rw [hsame.1]
  · rw [(dir_close_same _ _).2.2]
    simp only [set_entries]
    exact hsame.2.2

theorem filesys_open_spec (st : filesys) (path : cstr) (d : dir) (leaf : cstr) (e : dir_entry)
    (hres : (parse_path st path).2 = some (d, leaf))
    (hlk : lookup st d.inode leaf = some e) :
    (filesys_open st path).2 = some e.inode_sector ∧ same_disk st (filesys_open st path).1 := by
  have hsame := (parse_path_spec st path).1
  unfold filesys_open
  rcases hpp : parse_path st path with ⟨st1, r⟩
  rw [hpp] at hsame hres
  simp only at hsame hres
  subst hres
  simp only
  have hl1 := dir_lookup_same st1 d leaf
  have hl2 := dir_lookup_snd st1 d leaf
  rw [lookup_same hsame, hlk] at hl2
  rcases hdl : dir_lookup st1 d leaf with ⟨st2, oi⟩
  rw [hdl] at hl1 hl2
  simp only [Option.map_some'] at hl1 hl2
  subst hl2
  simp only [file_open]
  exact ⟨trivial, same_disk_trans hsame (same_disk_trans hl1 (dir_close_same _ _))⟩

/-- C8 (as amended): in a consistent state, when `parse_path` resolves the containing
directory of `path`, the leaf is at most `NAME_MAX` characters long and not yet present there,
and a free sector and a directory slot are available, `filesys_create (path, initial_size)`
returns true and a following `filesys_open (path)` returns a handle on an inode whose logical
length is `initial_size`. -/
theorem filesys_create_then_open (st : filesys) (path : cstr) (initial_size : Nat) (d : dir)
    (leaf : cstr)
    (hcons : consistent st = true)
    (hres : (parse_path st path).2 = some (d, leaf))
    (hleaf : strlen leaf ≤ NAME_MAX)
    (hnew : lookup st d.inode leaf = none)
    (hfree : ∃ s, s < st.fs_size ∧ st.free_map s = false)
    (hslot : (st.disk d.inode).entries.length < (st.disk d.inode).length / DIR_ENTRY_SIZE) :
    (filesys_create st path initial_size).2 = true ∧
    ∃ f, (filesys_open (filesys_create st path initial_size).1 path).2 = some f ∧
      inode_length (filesys_open (filesys_create st path initial_size).1 path).1 f =
        initial_size := by
  obtain ⟨hpne, s0, hstart, htok, hd0⟩ := parse_path_some st path d leaf hres
  have hs0 : in_use st s0 = true := consistent_start hcons hstart
  have hcne := components_ne_nil (path.take PATH_MAX)
  obtain ⟨_, hused, hlne⟩ := resolve_tokens_stable st st.disk hcons
    (fun x _ => ⟨rfl, fun _ _ h => h⟩) _ hcne s0 _ hs0 htok
  simp only at hused hlne
  obtain ⟨s, hsf, hok, hdisk, hcur⟩ :=
    filesys_create_succeeds st path initial_size d leaf hres hused hlne hleaf hnew hfree hslot
  refine ⟨hok, ?_⟩
  have hds : d.inode ≠ s := by
    intro h
    have := in_use_free_map hused
    rw [h, hsf] at this
    exact absurd this (by simp)
  have hext : ∀ x, in_use st x = true →
      ((filesys_create st path initial_size).1.disk x).is_dir = (st.disk x).is_dir ∧
      ∀ name e, (st.disk x).entries.find? (fun e => e.name = name) = some e →
        ((filesys_create st path initial_size).1.disk x).entries.find?
          (fun e => e.name = name) = some e := by
    intro x hx
    have hxs : x ≠ s := by
      intro h
      have := in_use_free_map hx
      rw [h, hsf] at this
      exact absurd this (by simp)
    rw [hdisk]
    simp only [disk_after_create, upd]
    by_cases hxd : x = d.inode
    · subst hxd
      simp only [if_true]
      refine ⟨trivial, fun name e he => ?_⟩
      rw [List.find?_append, he]
      rfl
    · simp only [hxd, hxs, if_false]
      exact ⟨trivial, fun _ _ h => h⟩
  obtain ⟨htok2, _, _⟩ := resolve_tokens_stable st _ hcons hext _ hcne s0 _ hs0 htok
  have hstart2 : start_dir (filesys_create st path initial_size).1 path = some s0 := by
    rw [← hstart]
    simp only [start_dir, hcur]
  have hres2 : (parse_path (filesys_create st path initial_size).1 path).2 = some (d, leaf) := by
    rw [(parse_path_spec _ path).2, resolve_eq_tokens _ path hpne, hstart2]
    simp only [Option.some_bind, htok2, Option.map_some']
    rw [← hd0]
  have hlk2 : lookup (filesys_create st path initial_size).1 d.inode leaf = some ⟨s, leaf⟩ := by
    simp only [lookup] at hnew ⊢
    rw [hdisk]
    simp only [disk_after_create, upd, if_true]
    rw [List.find?_append, hnew]
    simp
  obtain ⟨hopen, hsd⟩ := filesys_open_spec _ path d leaf _ hres2 hlk2
  refine ⟨s, hopen, ?_⟩
  simp only [inode_length]
  rw [hsd.1, hdisk]
  simp only [disk_after_create, upd, Ne.symm hds, if_false, if_true]

/-- C1 at a concrete input: `/a/b` in the file system holding the directory `/a`. -/
theorem parse_path_fails_iff_walk_fails_witness :
    (['/', 'a', '/', 'b'] : cstr) ≠ [] ∧ strlen ['/', 'a', '/', 'b'] < PATH_MAX ∧
    (∀ c ∈ components ['/', 'a', '/', 'b'], strlen c ≤ NAME_MAX) ∧
    fs_with_dir_a.current_dir = some ⟨1, 0⟩ ∧
    (parse_path fs_with_dir_a ['/', 'a', '/', 'b']).2 = some (⟨2, 0⟩, ['b']) :=
  ⟨by decide, by decide, by decide, by decide,
   (parse_path_fails_iff_walk_fails fs_with_dir_a ['/', 'a', '/', 'b'] ⟨1, 0⟩
      (by decide) (by decide) (by decide) (by decide)).2 2 (by decide)⟩

/-- C2: on the path `/aaaaaaaaaaaaaaa`, whose single component has 15 characters,
`parse_path` succeeds and hands back a leaf of 15 characters, one more than `NAME_MAX`. -/
theorem parse_path_accepts_fifteen_characters :
    (parse_path fresh_fs ('/' :: List.replicate 15 'a')).2 =
      some (⟨ROOT_DIR_SECTOR, 0⟩, List.replicate 15 'a') ∧
    NAME_MAX < strlen (List.replicate 15 'a') := by
  decide

/-- C3 fails as stated: `/a/` ends in a separator and names the directory stored at sector 2,
yet `parse_path` returns the root directory with the leaf `a`, not that directory with the
leaf `.`. -/
theorem slash_terminated_path_counterexample :
    walk fs_with_dir_a ROOT_DIR_SECTOR (components ['/', 'a', '/']) = some 2 ∧
    (parse_path fs_with_dir_a ['/', 'a', '/']).2 = some (⟨ROOT_DIR_SECTOR, 0⟩, ['a']) ∧
    (parse_path fs_with_dir_a ['/', 'a', '/']).2 ≠ some (⟨2, 0⟩, ['.']) := by
  decide

/-- C3 (as amended) at a concrete input: `/a` and `/a/`. -/
theorem parse_path_trailing_slash_witness :
    (['/', 'a'] : cstr) ≠ [] ∧
    (parse_path fs_with_dir_a (['/', 'a'] ++ ['/'])).2 =
      (parse_path fs_with_dir_a ['/', 'a']).2 :=
  ⟨by decide, (parse_path_trailing_slash fs_with_dir_a ['/', 'a'] (by decide)).2⟩

/-- C4 at a concrete input: `/a/b` resolved from the root and from `/a`. -/
theorem parse_path_absolute_ignores_current_dir_witness :
    (['/', 'a', '/', 'b'] : cstr).head? = some '/' ∧
    (parse_path { fs_with_dir_a with current_dir := some ⟨1, 0⟩ } ['/', 'a', '/', 'b']).2 =
      (parse_path { fs_with_dir_a with current_dir := some ⟨2, 0⟩ } ['/', 'a', '/', 'b']).2 :=
  ⟨by decide, parse_path_absolute_ignores_current_dir fs_with_dir_a ['/', 'a', '/', 'b']
    (some ⟨1, 0⟩) (some ⟨2, 0⟩) (by decide)⟩

set_option maxRecDepth 100000 in
/-- C5 fails as stated: with the root as current directory, reached by the absolute path `/`,
the relative path `long_relative_path` (255 characters) resolves to the leaf `bc` in the
directory `a`, while `/` + `/` + `long_relative_path` (257 characters) is cut at `PATH_MAX`
characters and resolves to the leaf `b`. -/
theorem parse_path_relative_counterexample :
    fs_with_dir_a.current_dir = some ⟨ROOT_DIR_SECTOR, 0⟩ ∧
    walk fs_with_dir_a ROOT_DIR_SECTOR (components ['/']) = some ROOT_DIR_SECTOR ∧
    (parse_path fs_with_dir_a long_relative_path).2 = some (⟨2, 0⟩, ['b', 'c']) ∧
    (parse_path fs_with_dir_a (['/'] ++ ['/'] ++ long_relative_path)).2 =
      some (⟨2, 0⟩, ['b']) ∧
    (parse_path fs_with_dir_a long_relative_path).2 ≠
      (parse_path fs_with_dir_a (['/'] ++ ['/'] ++ long_relative_path)).2 := by
  decide

/-- C5 (as amended) at a concrete input: `b` from the directory `/a`, and `/a/b`. -/
theorem parse_path_relative_eq_absolute_witness :
    ({ fs_with_dir_a with current_dir := some ⟨2, 0⟩ } : filesys).current_dir = some ⟨2, 0⟩ ∧
    (['b'] : cstr) ≠ [] ∧ (['b'] : cstr).head? ≠ some '/' ∧
    (['/', 'a'] : cstr).head? = some '/' ∧
    walk { fs_with_dir_a with current_dir := some ⟨2, 0⟩ } ROOT_DIR_SECTOR
      (components ['/', 'a']) = some 2 ∧
    (∀ c ∈ components ['/', 'a'], strlen c ≤ NAME_MAX) ∧
    strlen (['/', 'a'] ++ ['/'] ++ ['b']) < PATH_MAX ∧
    (parse_path { fs_with_dir_a with current_dir := some ⟨2, 0⟩ } ['b']).2 =
      (parse_path { fs_with_dir_a with current_dir := some ⟨2, 0⟩ }
        (['/', 'a'] ++ ['/'] ++ ['b'])).2 :=
  ⟨by decide, by decide, by decide, by decide, by decide, by decide, by decide,
   parse_path_relative_eq_absolute { fs_with_dir_a with current_dir := some ⟨2, 0⟩ } ⟨2, 0⟩
     ['/', 'a'] ['b'] (by decide) (by decide) (by decide) (by decide) (by decide) (by decide)
     (by decide)⟩

/-- C6: `/a` names an existing directory (stored at sector 2), yet `filesys_change_dir ("/a")`
returns false and leaves the current directory at the root: the path handed to `parse_path` is
`/a/0`, so the leaf looked up in `/a` is the appended `0`, not `a`. -/
theorem filesys_change_dir_existing_directory_fails :
    walk fs_with_dir_a ROOT_DIR_SECTOR (components ['/', 'a']) = some 2 ∧
    inode_is_dir fs_with_dir_a 2 = true ∧
    (parse_path fs_with_dir_a (strlcat (strlcpy [] ['/', 'a'] 256) ['/', '0'] 256)).2 =
      some (⟨2, 0⟩, ['0']) ∧
    (filesys_change_dir fs_with_dir_a ['/', 'a']).2 = false ∧
    (filesys_change_dir fs_with_dir_a ['/', 'a']).1.current_dir =
      some ⟨ROOT_DIR_SECTOR, 0⟩ := by
  decide

set_option maxRecDepth 100000 in
/-- C7: `long_path_to_f` (254 characters) names the regular file `f` of the root directory,
yet `filesys_change_dir` returns true on it and replaces the current directory, a handle on
the root, by a handle on the inode of that file: at this length only the separator of the
appended `/0` fits, so `f` itself is looked up, and nothing checks that it is a directory. -/
theorem filesys_change_dir_to_file_succeeds :
    strlen long_path_to_f = 254 ∧
    lookup fs_with_file_f ROOT_DIR_SECTOR ['f'] = some ⟨2, ['f']⟩ ∧
    inode_is_dir fs_with_file_f 2 = false ∧
    fs_with_file_f.current_dir = some ⟨ROOT_DIR_SECTOR, 0⟩ ∧
    (filesys_change_dir fs_with_file_f long_path_to_f).2 = true ∧
    (filesys_change_dir fs_with_file_f long_path_to_f).1.current_dir = some ⟨2, 0⟩ := by
  decide

/-- C8 fails as stated: on the fresh file system the containing directory of
`/aaaaaaaaaaaaaaa` resolves (it is the root), the leaf of 15 characters is not present there,
sector 2 is free and the root has free slots, yet `filesys_create` returns false. -/
theorem filesys_create_long_leaf_counterexample :
    (parse_path fresh_fs ('/' :: List.replicate 15 'a')).2 =
      some (⟨ROOT_DIR_SECTOR, 0⟩, List.replicate 15 'a') ∧
    lookup fresh_fs ROOT_DIR_SECTOR (List.replicate 15 'a') = none ∧
    (2 < fresh_fs.fs_size ∧ fresh_fs.free_map 2 = false) ∧
    (fresh_fs.disk ROOT_DIR_SECTOR).entries.length <
      (fresh_fs.disk ROOT_DIR_SECTOR).length / DIR_ENTRY_SIZE ∧
    (filesys_create fresh_fs ('/' :: List.replicate 15 'a') 0).2 = false := by
  decide

/-- C8 (as amended) at a concrete input: creating and opening `/f` with 5 bytes. -/
theorem filesys_create_then_open_witness :
    consistent fresh_fs = true ∧
    (parse_path fresh_fs ['/', 'f']).2 = some (⟨1, 0⟩, ['f']) ∧
    strlen ['f'] ≤ NAME_MAX ∧ lookup fresh_fs 1 ['f'] = none ∧
    (∃ s, s < fresh_fs.fs_size ∧ fresh_fs.free_map s = false) ∧
    (fresh_fs.disk 1).entries.length < (fresh_fs.disk 1).length / DIR_ENTRY_SIZE ∧
    (filesys_create fresh_fs ['/', 'f'] 5).2 = true ∧
    ∃ f, (filesys_open (filesys_create fresh_fs ['/', 'f'] 5).1 ['/', 'f']).2 = some f ∧
      inode_length (filesys_open (filesys_create fresh_fs ['/', 'f'] 5).1 ['/', 'f']).1 f = 5 :=
  ⟨by decide, by decide, by decide, by decide, ⟨2, by decide, by decide⟩, by decide,
   filesys_create_then_open fresh_fs ['/', 'f'] 5 ⟨1, 0⟩ ['f'] (by decide) (by decide)
     (by decide) (by decide) ⟨2, by decide, by decide⟩ (by decide)⟩

/-- C9 at a concrete input: creating `/f` a second time. -/
theorem filesys_create_failure_allocates_nothing_witness :
    fs_with_file_f.free_map FREE_MAP_SECTOR = true ∧
    (filesys_create fs_with_file_f ['/', 'f'] 7).2 = false ∧
    (filesys_create fs_with_file_f ['/', 'f'] 7).1.free_map = fs_with_file_f.free_map :=
  ⟨by decide,
   (filesys_create_failure_allocates_nothing fs_with_file_f ['/', 'f'] 7 (by decide)).2
     ⟨1, 0⟩ ['f'] (by decide) (by decide) (by decide),
   ((filesys_create_failure_allocates_nothing fs_with_file_f ['/', 'f'] 7 (by decide)).1
     (by decide)).1⟩

/-- C10 at a concrete input: removing `/` with the root as current directory. -/
theorem filesys_remove_current_dir_fails_witness :
    fs_with_dir_a.current_dir = some ⟨1, 0⟩ ∧
    (parse_path fs_with_dir_a ['/']).2 = some (⟨1, 0⟩, ['.']) ∧
    lookup fs_with_dir_a 1 ['.'] = some ⟨1, ['.']⟩ ∧
    inode_is_dir fs_with_dir_a 1 = true ∧
    (filesys_remove fs_with_dir_a ['/']).2 = false ∧
    lookup (filesys_remove fs_with_dir_a ['/']).1 1 ['.'] = some ⟨1, ['.']⟩ :=
  ⟨by decide, by decide, by decide, by decide,
   (filesys_remove_current_dir_fails fs_with_dir_a ['/'] ⟨1, 0⟩ ⟨1, 0⟩ ['.'] ⟨1, ['.']⟩
     (by decide) (by decide) (by decide) (by decide) (by decide)).1,
   (filesys_remove_current_dir_fails fs_with_dir_a ['/'] ⟨1, 0⟩ ⟨1, 0⟩ ['.'] ⟨1, ['.']⟩
     (by decide) (by decide) (by decide) (by decide) (by decide)).2.1⟩

/-- C13: removing the regular file `/f` returns true and leaves the open-handle count of its
inode (sector 2) at 1, where it was 0 before the call: the inode opened by `dir_lookup` is
never closed on the file path of `filesys_remove`. -/
theorem filesys_remove_file_leaks_handle :
    (filesys_remove fs_with_file_f ['/', 'f']).2 = true ∧
    inode_open_cnt fs_with_file_f 2 = 0 ∧
    inode_open_cnt (filesys_remove fs_with_file_f ['/', 'f']).1 2 = 1 := by
  decide

/-- C15: from the fresh file system the nine calls of the scenario return, in order, true,
false, true, no handle, false, false, false, false, false; the second call,
`change_directory ("/x")`, already fails. -/
theorem scenario_results :
    scenario_mkdir_x.2 = true ∧ scenario_chdir_x.2 = false ∧ scenario_create_y.2 = true ∧
    scenario_open_xy.2 = none ∧ scenario_remove_x_inside.2 = false ∧
    scenario_chdir_root.2 = false ∧ scenario_remove_x_nonempty.2 = false ∧
    scenario_remove_xy.2 = false ∧ scenario_remove_x_last.2 = false := by
  decide

/-- C18: `parse_path ("/f/x")`, where `/f` is a regular file, fails on the non-final component
`f` and leaves the open-handle count of the inode of `f` (sector 2) at 1, where it was 0 before
the call: the inode opened by `dir_lookup` is not closed on the not-a-directory return. -/
theorem parse_path_not_a_directory_leaks_handle :
    (parse_path fs_with_file_f ['/', 'f', '/', 'x']).2 = none ∧
    inode_open_cnt fs_with_file_f 2 = 0 ∧
    inode_open_cnt (parse_path fs_with_file_f ['/', 'f', '/', 'x']).1 2 = 1 := by
  decide

/-- C19: after `filesys_init` with formatting, `filesys_create_dir ("/a")` and
`filesys_create ("/a/0", 0)`, the call `filesys_change_dir ("/a")` returns true and installs as
current directory a handle on sector 3, the inode of the regular file `/a/0`. -/
theorem filesys_change_dir_installs_file :
    fs_with_file_a0 =
      (filesys_create (filesys_create_dir (filesys_init (blank_device 64) true)
        ['/', 'a']).1 ['/', 'a', '/', '0'] 0).1 ∧
    (filesys_change_dir fs_with_file_a0 ['/', 'a']).2 = true ∧
    (filesys_change_dir fs_with_file_a0 ['/', 'a']).1.current_dir = some ⟨3, 0⟩ ∧
    inode_is_dir (filesys_change_dir fs_with_file_a0 ['/', 'a']).1 3 = false := by
  refine ⟨rfl, ?_, ?_, ?_⟩ <;> decide

theorem dir_add_true (st : filesys) (d : dir) (name : cstr) (v : block_sector_t)
    (h : (dir_add st d name v).2 = true) :
    lookup st d.inode name = none ∧
    (dir_add st d name v).1 =
      set_entries st d.inode ((st.disk d.inode).entries ++ [⟨v, name⟩]) := by
  unfold dir_add at h ⊢
  by_cases h1 : name = [] ∨ strlen name > NAME_MAX
  · rw [if_pos h1] at h
    simp at h
  · rw [if_neg h1] at h ⊢
    by_cases h2 : (lookup st d.inode name).isSome = true
    · rw [if_pos h2] at h
      simp at h
    · rw [if_neg h2] at h ⊢
      by_cases h3 : (st.disk d.inode).entries.length < (st.disk d.inode).length / DIR_ENTRY_SIZE
      · rw [if_pos h3]
        refine ⟨?_, rfl⟩
        cases hl : lookup st d.inode name with
        | none => rfl
        | some e => rw [hl] at h2; simp at h2
      · rw [if_neg h3] at h
        simp at h

theorem dir_add_lookup_mono (st : filesys) (d : dir) (name : cstr) (v : block_sector_t)
    (y : block_sector_t) (n : cstr) (e : dir_entry) (h : lookup st y n = some e) :
    lookup (dir_add st d name v).1 y n = some e := by
  by_cases hr : (dir_add st d name v).2 = true
  · rw [(dir_add_true st d name v hr).2]
    simp only [lookup, set_entries, upd] at h ⊢
    by_cases hy : y = d.inode
    · subst hy
      simp only [if_true]
      rw [List.find?_append, h]
      rfl
    · simp only [hy, if_false]
      exact h
  · rw [dir_add_false st d name v (by simpa using hr)]
    exact h

theorem dir_add_lookup_new (st : filesys) (d : dir) (name : cstr) (v : block_sector_t)
    (h : (dir_add st d name v).2 = true) :
    lookup (dir_add st d name v).1 d.inode name = some ⟨v, name⟩ := by
  obtain ⟨hnone, hst⟩ := dir_add_true st d name v h
  rw [hst]
  simp only [lookup, set_entries, upd, if_true] at hnone ⊢
  rw [List.find?_append, hnone]
  simp

theorem add_self_entries_spec (st : filesys) (s p : block_sector_t) (leaf : cstr)
    (hlen : (st.disk s).length = 16 * DIR_ENTRY_SIZE)
    (hE : (st.disk s).entries = [] ∨ ((st.disk s).entries = [⟨s, leaf⟩] ∧ p = s)) :
    lookup (add_self_entries st s p) s ['.'] = some ⟨s, ['.']⟩ ∧
    lookup (add_self_entries st s p) s ['.', '.'] = some ⟨p, ['.', '.']⟩ := by
  have hd : (['.'] : cstr) ≠ ['.', '.'] := by decide
  have hd2 : (['.', '.'] : cstr) ≠ ['.'] := by decide
  rcases hE with hE | ⟨hE, hp⟩
  · simp [add_self_entries, dir_add, lookup, set_entries, upd, hlen, hE, strlen, NAME_MAX,
      DIR_ENTRY_SIZE]
  · subst hp
    by_cases h1 : leaf = ['.']
    · subst h1
      simp [add_self_entries, dir_add, lookup, set_entries, upd, hlen, hE, strlen, NAME_MAX,
        DIR_ENTRY_SIZE]
    · by_cases h2 : leaf = ['.', '.']
      · subst h2
        simp [add_self_entries, dir_add, lookup, set_entries, upd, hlen, hE, strlen, NAME_MAX,
          DIR_ENTRY_SIZE]
      · simp [add_self_entries, dir_add, lookup, set_entries, upd, hlen, hE, strlen, NAME_MAX,
          DIR_ENTRY_SIZE, h1, h2]

theorem filesys_create_dir_state (st : filesys) (path : cstr)
    (h : (filesys_create_dir st path).2 = true) :
    ∃ (d : dir) (leaf : cstr) (s : block_sector_t) (st1 st2 : filesys),
      parse_path st path = (st1, some (d, leaf)) ∧
      free_map_allocate st1 = (st2, some s) ∧
      (dir_add (dir_create st2 s 16).1 d leaf s).2 = true ∧
      same_disk
        (add_self_entries (inode_open (dir_add (dir_create st2 s 16).1 d leaf s).1 s).1 s d.inode)
        (filesys_create_dir st path).1 := by
  unfold filesys_create_dir at h ⊢
  rcases hpp : parse_path st path with ⟨st1, r⟩
  rw [hpp] at h
  cases r with
  | none => simp at h
  | some r =>
    obtain ⟨d, leaf⟩ := r
    simp only at h ⊢
    rcases hal : free_map_allocate st1 with ⟨st2, os⟩
    rw [hal] at h
    cases os with
    | none => simp at h
    | some s =>
      simp only at h ⊢
      have hc : (dir_create st2 s 16).2 = true := rfl
      simp only [hc, if_true] at h ⊢
      by_cases ha : (dir_add (dir_create st2 s 16).1 d leaf s).2 = true
      · refine ⟨d, leaf, s, st1, st2, rfl, hal, ha, ?_⟩
        simp only [ha, if_true, dir_open, inode_open_snd, inode_get_inumber, dir_get_inode]
        exact same_disk_trans (dir_close_same _ _) (dir_close_same _ _)
      · simp [ha] at h

/-- C14: whenever `filesys_create_dir (path)` returns true, with `d` and `leaf` the containing
directory and leaf that `parse_path` returns and `s` the sector then allocated for the new
directory, afterwards the new directory maps `.` to its own sector `s` and `..` to the sector
of `d`, and `d` maps `leaf` to `s`. -/
theorem filesys_create_dir_populates (st : filesys) (path : cstr)
    (h : (filesys_create_dir st path).2 = true) :
    ∃ (d : dir) (leaf : cstr) (s : block_sector_t),
      (parse_path st path).2 = some (d, leaf) ∧
      (free_map_allocate (parse_path st path).1).2 = some s ∧
      lookup (filesys_create_dir st path).1 s ['.'] = some ⟨s, ['.']⟩ ∧
      lookup (filesys_create_dir st path).1 s ['.', '.'] = some ⟨d.inode, ['.', '.']⟩ ∧
      lookup (filesys_create_dir st path).1 d.inode leaf = some ⟨s, leaf⟩ := by
  obtain ⟨d, leaf, s, st1, st2, hpp, hal, ha, hsd⟩ := filesys_create_dir_state st path h
  refine ⟨d, leaf, s, by rw [hpp], by rw [hpp, hal], ?_⟩
  obtain ⟨hnone, hst⟩ := dir_add_true _ d leaf s ha
  have ho := inode_open_same (dir_add (dir_create st2 s 16).1 d leaf s).1 s
  have hdisk : (inode_open (dir_add (dir_create st2 s 16).1 d leaf s).1 s).1.disk =
      (set_entries (dir_create st2 s 16).1 d.inode
        (((dir_create st2 s 16).1.disk d.inode).entries ++ [⟨s, leaf⟩])).disk := by
    rw [ho.1, hst]
  have hlen : ((inode_open (dir_add (dir_create st2 s 16).1 d leaf s).1 s).1.disk s).length =
      16 * DIR_ENTRY_SIZE := by
    rw [hdisk]
    simp only [set_entries, dir_create, inode_create, upd]
    split <;> simp_all
  have hE : ((inode_open (dir_add (dir_create st2 s 16).1 d leaf s).1 s).1.disk s).entries = [] ∨
      (((inode_open (dir_add (dir_create st2 s 16).1 d leaf s).1 s).1.disk s).entries =
        [⟨s, leaf⟩] ∧ d.inode = s) := by
    rw [hdisk]
    simp only [set_entries, dir_create, inode_create, upd]
    by_cases hds : s = d.inode
    · right
      subst hds
      simp
    · left
      simp [hds]
  obtain ⟨hdot, hdotdot⟩ := add_self_entries_spec _ s d.inode leaf hlen hE
  refine ⟨?_, ?_, ?_⟩
  · rw [lookup_same hsd]
    exact hdot
  · rw [lookup_same hsd]
    exact hdotdot
  · rw [lookup_same hsd]
    unfold add_self_entries
    apply dir_add_lookup_mono
    apply dir_add_lookup_mono
    rw [lookup_same ho]
    exact dir_add_lookup_new _ d leaf s ha

/-- C14 at a concrete input: `filesys_create_dir ("/a")` on the fresh file system. -/
theorem filesys_create_dir_populates_witness :
    (filesys_create_dir fresh_fs ['/', 'a']).2 = true ∧
    ∃ (d : dir) (leaf : cstr) (s : block_sector_t),
      (parse_path fresh_fs ['/', 'a']).2 = some (d, leaf) ∧
      (free_map_allocate (parse_path fresh_fs ['/', 'a']).1).2 = some s ∧
      lookup (filesys_create_dir fresh_fs ['/', 'a']).1 s ['.'] = some ⟨s, ['.']⟩ ∧
      lookup (filesys_create_dir fresh_fs ['/', 'a']).1 s ['.', '.'] =
        some ⟨d.inode, ['.', '.']⟩ ∧
      lookup (filesys_create_dir fresh_fs ['/', 'a']).1 d.inode leaf = some ⟨s, leaf⟩ :=
  ⟨by decide, filesys_create_dir_populates fresh_fs ['/', 'a'] (by decide)⟩

theorem inode_open_cnt_eq (st : filesys) (s : block_sector_t) :
    (inode_open st s).1.open_cnt = upd st.open_cnt s (st.open_cnt s + 1) := by
  unfold inode_open
  by_cases h : st.open_cnt s = 0
  · rw [if_pos h, h]
  · rw [if_neg h]

theorem inode_close_cnt_eq (st : filesys) (s : block_sector_t) :
    (inode_close st s).open_cnt = upd st.open_cnt s (st.open_cnt s - 1) := by
  unfold inode_close free_map_release
  by_cases h : st.open_cnt s = 0
  · rw [if_pos h]
    funext x
    simp only [upd]
    split
    · next hx => rw [hx, h]
    · rfl
  · rw [if_neg h]
    by_cases h1 : st.open_cnt s = 1
    · rw [if_pos h1, h1]
      split <;> rfl
    · rw [if_neg h1]

theorem cnt_inv_step (st0 st : filesys) (d i : block_sector_t) (h : cnt_inv st0 st d) :
    cnt_inv st0 (inode_close (inode_open st i).1 d) i := by
  obtain ⟨h1, h2⟩ := h
  unfold cnt_inv
  rw [inode_close_cnt_eq, inode_open_cnt_eq]
  refine ⟨fun s hs => ?_, ?_⟩
  · simp only [upd]
    by_cases hsd : s = d
    · subst hsd
      simp only [if_true, hs, if_false]
      rcases h2 with h2 | h2 <;> omega
    · simp only [hsd, hs, if_false]
      exact h1 s hsd
  · simp only [upd]
    by_cases hid : i = d
    · subst hid
      simp only [if_true]
      rcases h2 with h2 | h2 <;> omega
    · simp only [hid, if_false, if_true]
      left
      rw [h1 i hid]

theorem parse_path_loop_cnt (st0 : filesys) (fuel : Nat) : ∀ (st : filesys) (d : dir)
    (token : cstr) (next : Option cstr) (save : cstr), cnt_inv st0 st d.inode →
    ∀ (d1 : dir) (leaf : cstr), (parse_path_loop fuel st d token next save).2 = some (d1, leaf) →
    cnt_inv st0 (parse_path_loop fuel st d token next save).1 d1.inode := by
  induction fuel with
  | zero =>
    intro st d token next save h d1 leaf hr
    cases next with
    | none =>
      simp only [parse_path_loop, Option.some.injEq, Prod.mk.injEq] at hr ⊢
      rw [← hr.1]
      exact h
    | some n => simp [parse_path_loop] at hr
  | succ fuel ih =>
    intro st d token next save h d1 leaf hr
    cases next with
    | none =>
      simp only [parse_path_loop, Option.some.injEq, Prod.mk.injEq] at hr ⊢
      rw [← hr.1]
      exact h
    | some n =>
      rw [parse_path_loop] at hr ⊢
      by_cases hchk : strlen token > NAME_MAX + 1 ∨ strlen n > NAME_MAX + 1
      · simp [hchk] at hr
      · simp only [hchk, if_false] at hr ⊢
        unfold dir_lookup at hr ⊢
        cases hl : lookup st d.inode token with
        | none => simp [hl] at hr
        | some e =>
          simp only [hl, inode_open_snd, dir_close] at hr ⊢
          have h2 := cnt_inv_step st0 st d.inode e.inode_sector h
          by_cases hd : inode_is_dir (inode_close (inode_open st e.inode_sector).1 d.inode)
              e.inode_sector = true
          · simp only [hd, Bool.not_true, Bool.false_eq_true, if_false, dir_open] at hr ⊢
            exact ih _ ⟨e.inode_sector, 0⟩ _ _ _ h2 d1 leaf hr
          · simp [hd] at hr

theorem parse_path_cnt (st : filesys) (path : cstr) (d : dir) (leaf : cstr)
    (hr : (parse_path st path).2 = some (d, leaf)) :
    cnt_inv st (parse_path st path).1 d.inode := by
  unfold parse_path at hr ⊢
  by_cases hp : strlen path = 0
  · simp [hp] at hr
  · simp only [hp, if_false] at hr ⊢
    have hstart : ∃ r : filesys × Option dir,
        (if (strlcpy [] path (PATH_MAX + 1)).head? = some '/' then dir_open_root st
          else dir_reopen st st.current_dir) = r ∧
        ∀ x, r.2 = some x → cnt_inv st r.1 x.inode := by
      refine ⟨_, rfl, ?_⟩
      split
      · intro x hx
        simp only [dir_open_root, dir_open, inode_open_snd, Option.some.injEq] at hx ⊢
        subst hx
        refine ⟨fun s hs => ?_, Or.inl ?_⟩
        · rw [inode_open_cnt_eq]
          simp only [upd, hs, if_false]
        · rw [inode_open_cnt_eq]
          simp only [upd, if_true]
      · intro x hx
        cases hc : st.current_dir with
        | none => rw [hc] at hx; simp [dir_reopen] at hx
        | some c =>
          rw [hc] at hx
          simp only [dir_reopen, dir_open, inode_reopen_snd, Option.some.injEq] at hx ⊢
          subst hx
          simp only [inode_reopen]
          by_cases hz : st.open_cnt c.inode = 0
          · rw [if_pos hz]
            exact ⟨fun _ _ => rfl, Or.inr ⟨hz, hz⟩⟩
          · rw [if_neg hz]
            refine ⟨fun s hs => ?_, Or.inl ?_⟩
            · simp only [upd, hs, if_false]
            · simp only [upd, if_true]
    obtain ⟨⟨st1, od⟩, hre, hinv⟩ := hstart
    rw [hre] at hr ⊢
    cases od with
    | none => simp at hr
    | some d0 =>
      have h0 := hinv d0 rfl
      simp only at h0 hr ⊢
      cases ht : (strtok_r (strlcpy [] path (PATH_MAX + 1))).1 with
      | none =>
        rw [ht] at hr
        simp only [Option.some.injEq, Prod.mk.injEq] at hr ⊢
        rw [← hr.1]
        exact h0
      | some token =>
        rw [ht] at hr
        simp only at hr ⊢
        split at hr
        · simp at hr
        · next hn =>
          rw [if_neg hn]
          exact parse_path_loop_cnt st _ _ _ _ _ _ h0 d leaf hr

theorem inode_remove_same (st : filesys) (s : block_sector_t) :
    same_disk st (inode_remove st s) := ⟨rfl, rfl, rfl⟩

theorem dir_remove_found (st : filesys) (d : dir) (name : cstr) (e : dir_entry)
    (h : lookup st d.inode name = some e) :
    (dir_remove st d name).2 = true ∧
    (dir_remove st d name).1.disk =
      (set_entries st d.inode
        ((st.disk d.inode).entries.eraseP (fun x => x.name = name))).disk := by
  unfold dir_remove
  rw [h]
  simp only
  refine ⟨trivial, ?_⟩
  rw [(inode_close_same _ _).1, (inode_remove_same _ _).1]
  simp only [set_entries, (inode_open_same st e.inode_sector).1]

theorem dir_readdir_same {st st1 : filesys} (h : same_disk st st1) (d : dir) :
    dir_readdir st1 d = dir_readdir st d := by
  simp [dir_readdir, h.1]

theorem dir_readdir_none_iff (st : filesys) (s : block_sector_t) :
    dir_readdir st ⟨s, 0⟩ = none ↔
      ∀ x ∈ (st.disk s).entries, x.name = ['.'] ∨ x.name = ['.', '.'] := by
  simp only [dir_readdir, List.drop_zero, Option.map_eq_none', List.find?_eq_none,
    decide_eq_true_eq]
  constructor
  · intro h x hx
    have := h x hx
    by_cases h1 : x.name = ['.']
    · exact Or.inl h1
    · right
      by_contra h2
      exact this ⟨h1, h2⟩
  · intro h x hx hcon
    rcases h x hx with h1 | h1
    · exact hcon.1 h1
    · exact hcon.2 h1

/-- What `filesys_remove` does on a path that resolves to a directory: it returns true exactly
when the thread has a current directory on another inode, the directory had no open handle when
its entry was looked up, and it holds no entry besides `.` and `..`; the entry is then erased,
and otherwise the disk is as before. -/
theorem filesys_remove_directory (st : filesys) (path : cstr) (d : dir) (leaf : cstr)
    (e : dir_entry)
    (hres : (parse_path st path).2 = some (d, leaf))
    (hlk : lookup st d.inode leaf = some e)
    (hdir : inode_is_dir st e.inode_sector = true) :
    inode_open_cnt (dir_lookup (parse_path st path).1 d leaf).1 e.inode_sector =
      (parse_path st path).1.open_cnt e.inode_sector + 1 ∧
    ((filesys_remove st path).2 = true ↔
      ((∃ c, st.current_dir = some c ∧ c.inode ≠ e.inode_sector) ∧
        (parse_path st path).1.open_cnt e.inode_sector = 0 ∧
        dir_readdir st ⟨e.inode_sector, 0⟩ = none)) ∧
    ((filesys_remove st path).2 = true →
      (filesys_remove st path).1.disk =
        (set_entries st d.inode
          ((st.disk d.inode).entries.eraseP (fun x => x.name = leaf))).disk) ∧
    ((filesys_remove st path).2 = false → (filesys_remove st path).1.disk = st.disk) := by
  have hsame := (parse_path_spec st path).1
  unfold filesys_remove
  rcases hpp : parse_path st path with ⟨st1, r⟩
  rw [hpp] at hsame hres
  simp only at hsame hres
  subst hres
  simp only
  have hlk1 : lookup st1 d.inode leaf = some e := by rw [lookup_same hsame, hlk]
  have hdl : dir_lookup st1 d leaf = ((inode_open st1 e.inode_sector).1, some e.inode_sector) := by
    simp only [dir_lookup, hlk1, inode_open_snd]
  rw [hdl]
  simp only
  have hs2 : same_disk st (inode_open st1 e.inode_sector).1 :=
    same_disk_trans hsame (inode_open_same _ _)
  have hcnt : inode_open_cnt (inode_open st1 e.inode_sector).1 e.inode_sector =
      st1.open_cnt e.inode_sector + 1 := by
    simp only [inode_open_cnt, inode_open_cnt_eq, upd, if_true]
  have hd2 : inode_is_dir (inode_open st1 e.inode_sector).1 e.inode_sector = true := by
    simp only [inode_is_dir, hs2.1] at hdir ⊢
    exact hdir
  refine ⟨hcnt, ?_⟩
  simp only [hd2, if_true, hs2.2.2, dir_get_inode, hcnt, dir_open]
  cases hc : st.current_dir with
  | none =>
    simp only
    refine ⟨by simp, by simp, fun _ => hs2.1⟩
  | some c =>
    simp only
    by_cases hce : c.inode = e.inode_sector
    · simp only [hce, if_true]
      refine ⟨by simp [hce], by simp, fun _ => ?_⟩
      rw [(dir_close_same _ _).1, hs2.1]
    · simp only [hce, if_false]
      by_cases hb : st1.open_cnt e.inode_sector + 1 > 1
      · simp only [hb, if_true]
        refine ⟨?_, by simp, fun _ => ?_⟩
        · constructor
          · intro h; simp at h
          · intro h; omega
        · rw [(dir_close_same _ _).1, hs2.1]
      · simp only [hb, if_false]
        have hz : st1.open_cnt e.inode_sector = 0 := by omega
        rw [dir_readdir_same hs2]
        by_cases hrd : dir_readdir st ⟨e.inode_sector, 0⟩ = none
        · simp only [hrd, if_true]
          have hlk2 : lookup (inode_open st1 e.inode_sector).1 d.inode leaf = some e := by
            rw [lookup_same hs2, hlk]
          obtain ⟨hrt, hrdisk⟩ := dir_remove_found _ d leaf e hlk2
          refine ⟨?_, fun _ => ?_, fun h => ?_⟩
          · constructor
            · intro _
              exact ⟨⟨c, rfl, hce⟩, hz, trivial⟩
            · intro _
              exact hrt
          · rw [(dir_close_same _ _).1, (dir_close_same _ _).1, hrdisk]
            simp only [set_entries, hs2.1]
          · rw [hrt] at h
            simp at h
        · simp only [hrd, if_false]
          refine ⟨?_, by simp, fun _ => ?_⟩
          · constructor
            · intro h; simp at h
            · intro h; exact h.2.2.elim
          · rw [(dir_close_same _ _).1, (dir_close_same _ _).1, hs2.1]

theorem find_eraseP_nodup (n : cstr) (l : List dir_entry)
    (h : (l.map (fun x => x.name)).Nodup) :
    (l.eraseP (fun x => x.name = n)).find? (fun x => x.name = n) = none := by
  induction l with
  | nil => simp
  | cons x xs ih =>
    simp only [List.map_cons, List.nodup_cons] at h
    by_cases hx : x.name = n
    · rw [List.eraseP_cons_of_pos (by simpa using hx)]
      rw [List.find?_eq_none]
      intro y hy hyn
      apply h.1
      simp only [decide_eq_true_eq] at hyn
      rw [hx, ← hyn]
      exact List.mem_map_of_mem _ hy
    · rw [List.eraseP_cons_of_neg (by simpa using hx)]
      rw [List.find?_cons_of_neg _ (by simpa using hx)]
      exact ih h.2

/-- C11 (as amended): let `path` resolve, through an entry `leaf` of a containing directory
`d`, to a directory other than `d` itself, which is not the caller's current directory and has
no open handle.  If that directory holds an entry other than `.` and `..`,
`filesys_remove (path)` returns false and leaves the entry in place; if it holds no such entry,
the call returns true and the entry is erased from `d`, so that `leaf` is no longer found there
(the names in `d` being distinct). -/
theorem filesys_remove_directory_emptiness (st : filesys) (path : cstr) (c d : dir)
    (leaf : cstr) (e : dir_entry)
    (hcwd : st.current_dir = some c)
    (hres : (parse_path st path).2 = some (d, leaf))
    (hlk : lookup st d.inode leaf = some e)
    (hdir : inode_is_dir st e.inode_sector = true)
    (hnc : c.inode ≠ e.inode_sector)
    (hcnt : inode_open_cnt st e.inode_sector = 0)
    (hne : d.inode ≠ e.inode_sector) :
    ((∃ x ∈ (st.disk e.inode_sector).entries, x.name ≠ ['.'] ∧ x.name ≠ ['.', '.']) →
      (filesys_remove st path).2 = false ∧
      lookup (filesys_remove st path).1 d.inode leaf = some e) ∧
    ((∀ x ∈ (st.disk e.inode_sector).entries, x.name = ['.'] ∨ x.name = ['.', '.']) →
      (filesys_remove st path).2 = true ∧
      ((filesys_remove st path).1.disk d.inode).entries =
        (st.disk d.inode).entries.eraseP (fun x => x.name = leaf) ∧
      (((st.disk d.inode).entries.map (fun x => x.name)).Nodup →
        lookup (filesys_remove st path).1 d.inode leaf = none)) := by
  obtain ⟨_, hiff, htrue, hfalse⟩ := filesys_remove_directory st path d leaf e hres hlk hdir
  have hc1 : (parse_path st path).1.open_cnt e.inode_sector = 0 := by
    rw [(parse_path_cnt st path d leaf hres).1 _ (Ne.symm hne)]
    exact hcnt
  constructor
  · rintro ⟨x, hx, hx1, hx2⟩
    have hf : (filesys_remove st path).2 = false := by
      cases hv : (filesys_remove st path).2 with
      | false => rfl
      | true =>
        have := (hiff.1 hv).2.2
        rw [dir_readdir_none_iff] at this
        rcases this x hx with h | h
        · exact absurd h hx1
        · exact absurd h hx2
    refine ⟨hf, ?_⟩
    simp only [lookup, hfalse hf]
    exact hlk
  · intro hall
    have ht : (filesys_remove st path).2 = true :=
      hiff.2 ⟨⟨c, hcwd, hnc⟩, hc1, (dir_readdir_none_iff st _).2 hall⟩
    have hd := htrue ht
    have hent : ((filesys_remove st path).1.disk d.inode).entries =
        (st.disk d.inode).entries.eraseP (fun x => x.name = leaf) := by
      rw [hd]
      simp [set_entries, upd]
    refine ⟨ht, hent, fun hnd => ?_⟩
    simp only [lookup, hent]
    exact find_eraseP_nodup leaf _ hnd

/-- C11 fails as stated: `/a/.` names the directory `/a`, which is not the current directory
(the root), has no open handle and holds only `.` and `..`, yet `filesys_remove ("/a/.")`
returns false. -/
theorem remove_through_dot_counterexample :
    fs_with_dir_a.current_dir = some ⟨ROOT_DIR_SECTOR, 0⟩ ∧
    (parse_path fs_with_dir_a ['/', 'a', '/', '.']).2 = some (⟨2, 0⟩, ['.']) ∧
    lookup fs_with_dir_a 2 ['.'] = some ⟨2, ['.']⟩ ∧
    inode_is_dir fs_with_dir_a 2 = true ∧
    inode_open_cnt fs_with_dir_a 2 = 0 ∧
    (∀ x ∈ (fs_with_dir_a.disk 2).entries, x.name = ['.'] ∨ x.name = ['.', '.']) ∧
    (filesys_remove fs_with_dir_a ['/', 'a', '/', '.']).2 = false := by
  decide

/-- C11 (as amended) at a concrete input: removing the empty directory `/a`. -/
theorem filesys_remove_directory_emptiness_witness :
    fs_with_dir_a.current_dir = some ⟨1, 0⟩ ∧
    (parse_path fs_with_dir_a ['/', 'a']).2 = some (⟨1, 0⟩, ['a']) ∧
    lookup fs_with_dir_a 1 ['a'] = some ⟨2, ['a']⟩ ∧
    inode_is_dir fs_with_dir_a 2 = true ∧ (1 : block_sector_t) ≠ 2 ∧
    inode_open_cnt fs_with_dir_a 2 = 0 ∧
    (filesys_remove fs_with_dir_a ['/', 'a']).2 = true ∧
    lookup (filesys_remove fs_with_dir_a ['/', 'a']).1 1 ['a'] = none :=
  ⟨by decide, by decide, by decide, by decide, by decide, by decide,
   ((filesys_remove_directory_emptiness fs_with_dir_a ['/', 'a'] ⟨1, 0⟩ ⟨1, 0⟩ ['a']
      ⟨2, ['a']⟩ (by decide) (by decide) (by decide) (by decide) (by decide) (by decide)
      (by decide)).2 (by decide)).1,
   ((filesys_remove_directory_emptiness fs_with_dir_a ['/', 'a'] ⟨1, 0⟩ ⟨1, 0⟩ ['a']
      ⟨2, ['a']⟩ (by decide) (by decide) (by decide) (by decide) (by decide) (by decide)
      (by decide)).2 (by decide)).2.2 (by decide)⟩

/-- C12 (as amended): let `path` resolve, through an entry `leaf` of a containing directory
`d`, to a directory.  If a handle on that directory is open before the call, the count read
inside the call is greater than 1, `filesys_remove (path)` returns false and the entry
remains.  If no handle on it is open before the call and `d` is another directory, the count
read inside the call is 1 and the directory is not rejected as busy: unless it is the current
directory, the call returns true exactly when it holds no entry besides `.` and `..`. -/
theorem filesys_remove_busy_directory (st : filesys) (path : cstr) (d : dir)
    (leaf : cstr) (e : dir_entry)
    (hres : (parse_path st path).2 = some (d, leaf))
    (hlk : lookup st d.inode leaf = some e)
    (hdir : inode_is_dir st e.inode_sector = true) :
    (0 < inode_open_cnt st e.inode_sector →
      1 < inode_open_cnt (dir_lookup (parse_path st path).1 d leaf).1 e.inode_sector ∧
      (filesys_remove st path).2 = false ∧
      lookup (filesys_remove st path).1 d.inode leaf = some e) ∧
    (inode_open_cnt st e.inode_sector = 0 → d.inode ≠ e.inode_sector →
      inode_open_cnt (dir_lookup (parse_path st path).1 d leaf).1 e.inode_sector = 1 ∧
      ∀ c, st.current_dir = some c → c.inode ≠ e.inode_sector →
        ((filesys_remove st path).2 = true ↔ dir_readdir st ⟨e.inode_sector, 0⟩ = none)) := by
  obtain ⟨hin, hiff, _, hfalse⟩ := filesys_remove_directory st path d leaf e hres hlk hdir
  obtain ⟨hc1, hc2⟩ := parse_path_cnt st path d leaf hres
  simp only [inode_open_cnt] at hin ⊢
  constructor
  · intro hopen
    have hge : 0 < (parse_path st path).1.open_cnt e.inode_sector := by
      by_cases hed : e.inode_sector = d.inode
      · rw [hed] at hopen ⊢
        rcases hc2 with h | h <;> omega
      · rw [hc1 _ hed]
        exact hopen
    have hf : (filesys_remove st path).2 = false := by
      cases hv : (filesys_remove st path).2 with
      | false => rfl
      | true =>
        have := (hiff.1 hv).2.1
        omega
    refine ⟨by rw [hin]; omega, hf, ?_⟩
    simp only [lookup, hfalse hf]
    exact hlk
  · intro hz hne
    have hc0 : (parse_path st path).1.open_cnt e.inode_sector = 0 := by
      rw [hc1 _ (Ne.symm hne)]
      exact hz
    refine ⟨by rw [hin, hc0], fun c hc hnc => ?_⟩
    constructor
    · intro hv
      exact (hiff.1 hv).2.2
    · intro hrd
      exact hiff.2 ⟨⟨c, hc, hnc⟩, hc0, hrd⟩

/-- C12 fails as stated: no handle on the directory `/x` is open before the call, yet
`filesys_remove ("/x/.")` reads an open-handle count of 2, both handles being its own (the
containing-directory handle of `parse_path` and the handle of `dir_lookup`), and returns
false although `/x` holds only `.` and `..`. -/
theorem busy_by_own_handle_counterexample :
    scenario_mkdir_x.1.current_dir = some ⟨ROOT_DIR_SECTOR, 0⟩ ∧
    inode_open_cnt scenario_mkdir_x.1 2 = 0 ∧
    (parse_path scenario_mkdir_x.1 ['/', 'x', '/', '.']).2 = some (⟨2, 0⟩, ['.']) ∧
    inode_open_cnt (dir_lookup (parse_path scenario_mkdir_x.1 ['/', 'x', '/', '.']).1
      ⟨2, 0⟩ ['.']).1 2 = 2 ∧
    dir_readdir scenario_mkdir_x.1 ⟨2, 0⟩ = none ∧
    (filesys_remove scenario_mkdir_x.1 ['/', 'x', '/', '.']).2 = false := by
  decide

/-- C12 (as amended) at a concrete input: `/x` after the failed `change_directory ("/x")` of
the scenario, which left a handle on `/x` open. -/
theorem filesys_remove_busy_directory_witness :
    (parse_path scenario_chdir_x.1 ['/', 'x']).2 = some (⟨1, 0⟩, ['x']) ∧
    lookup scenario_chdir_x.1 1 ['x'] = some ⟨2, ['x']⟩ ∧
    inode_is_dir scenario_chdir_x.1 2 = true ∧
    0 < inode_open_cnt scenario_chdir_x.1 2 ∧
    (filesys_remove scenario_chdir_x.1 ['/', 'x']).2 = false :=
  ⟨by decide, by decide, by decide, by decide,
   ((filesys_remove_busy_directory scenario_chdir_x.1 ['/', 'x'] ⟨1, 0⟩ ['x'] ⟨2, ['x']⟩
      (by decide) (by decide) (by decide)).1 (by decide)).2.1⟩

theorem strcmp_not_lt_iff (a : cstr) : ∀ b : cstr,
    (¬ strcmp a b < 0 ∧ ¬ strcmp b a < 0) ↔ a = b := by
  induction a with
  | nil =>
    intro b
    cases b <;> simp [strcmp]
  | cons x xs ih =>
    intro b
    cases b with
    | nil => simp [strcmp]
    | cons y ys =>
      by_cases hxy : x = y
      · subst hxy
        simp only [strcmp, if_true, List.cons.injEq, true_and]
        exact ih ys
      · have hyx : ¬ y = x := fun h => hxy h.symm
        have hne : x.toNat ≠ y.toNat := by
          intro h
          apply hxy
          rw [← Char.ofNat_toNat x, ← Char.ofNat_toNat y, h]
        simp only [strcmp, hxy, hyx, if_false, List.cons.injEq, false_and, iff_false, not_and,
          not_not]
        intro h
        by_cases hlt : x.toNat < y.toNat
        · simp [hlt] at h
        · have : y.toNat < x.toNat := by omega
          simp [this]

theorem dentry_equal_iff (x e : dc_entry) :
    (!dentry_less_function x e && !dentry_less_function e x) = true ↔ x.path = e.path := by
  rw [← strcmp_not_lt_iff]
  simp only [dentry_less_function, Bool.and_eq_true, Bool.not_eq_true']
  constructor
  · rintro ⟨h1, h2⟩
    constructor
    · intro h; simp [h] at h1
    · intro h; simp [h] at h2
  · rintro ⟨h1, h2⟩
    simp [h1, h2]

theorem hash_find_eq (h : hash) (e : dc_entry) :
    hash_find h e = h.elems.find? (fun x => decide (x.path = e.path)) := by
  unfold hash_find find_bucket
  rw [List.find?_filter]
  congr 1
  funext x
  by_cases hp : x.path = e.path
  · have := (dentry_equal_iff x e).2 hp
    simp [this, hp, dentry_hash_function]
  · have : ¬ (!dentry_less_function x e && !dentry_less_function e x) = true :=
      fun h => hp ((dentry_equal_iff x e).1 h)
    simp only [Bool.not_eq_true] at this
    simp [this, hp]

/-- C16: `dentry_insertion` returns true exactly when no entry of the cache has the path
string of the new entry; when it returns false the cache is unchanged, so that
`dentry_search` on that path returns what it returned before, an entry of the cache with that
path; when it returns true, `dentry_search` on the path of the new entry returns that entry. -/
theorem dentry_insertion_spec (cache : hash) (e : dc_entry) :
    ((dentry_insertion cache e).2 = true ↔ ∀ x ∈ cache.elems, x.path ≠ e.path) ∧
    ((dentry_insertion cache e).2 = false →
      (dentry_insertion cache e).1 = cache ∧
      dentry_search (dentry_insertion cache e).1 e.path = dentry_search cache e.path ∧
      ∃ old ∈ cache.elems, old.path = e.path ∧ dentry_search cache e.path = some old) ∧
    ((dentry_insertion cache e).2 = true →
      dentry_search (dentry_insertion cache e).1 e.path = some e) := by
  have hs : ∀ c : hash, dentry_search c e.path = c.elems.find? (fun x => decide (x.path = e.path)) := by
    intro c
    simp only [dentry_search, hash_find_eq]
  simp only [dentry_insertion, hash_insert, hs]
  rw [hash_find_eq]
  cases hf : cache.elems.find? (fun x => decide (x.path = e.path)) with
  | none =>
    have hall : ∀ x ∈ cache.elems, x.path ≠ e.path := by
      intro x hx
      have := List.find?_eq_none.1 hf x hx
      simpa using this
    simp only [Option.isNone_none, true_iff, Bool.true_eq_false, false_implies, true_and,
      forall_true_left]
    refine ⟨hall, ?_⟩
    simp
  | some old =>
    have h1 := List.find?_some hf
    have h2 := List.mem_of_find?_eq_some hf
    simp only [decide_eq_true_eq] at h1
    simp only [Option.isNone_some, Bool.false_eq_true, false_iff, not_forall, true_implies,
      false_implies, and_true]
    exact ⟨⟨old, h2, by simpa using h1⟩, trivial, hf, old, h2, h1, rfl⟩

/-- C17: on a path with a separator the parent key is the text before the last separator
(`/a/b/c` looks up `/a/b`, `/a` looks up the empty string), but on the path `a`, which has no
separator, the loop ends with `i = -1`, `strlcpy` is called with size 0 and writes nothing, and
the key looked up is whatever the block of `path_parent` holds (here `x`), not the empty
string. -/
theorem dentry_parent_search_without_separator :
    dentry_parent_search cache_with_parents ['x'] ['/', 'a', '/', 'b', '/', 'c'] =
      dentry_search cache_with_parents ['/', 'a', '/', 'b'] ∧
    dentry_parent_search cache_with_parents ['x'] ['/', 'a'] =
      dentry_search cache_with_parents [] ∧
    last_slash ['a'] (strlen ['a']) = -1 ∧
    dentry_search cache_with_x [] = none ∧
    dentry_parent_search cache_with_x ['x'] ['a'] = some ⟨['x'], 7⟩ ∧
    dentry_parent_search cache_with_x ['x'] ['a'] ≠ dentry_search cache_with_x [] := by
  decide

theorem holds_nil (buf : buffer) (i : Nat) : holds buf i [] ↔ buf i = NUL := by
  simp only [holds, List.not_mem_nil, false_implies, implies_true, List.length_nil,
    Nat.le_zero_eq, true_and]
  constructor
  · intro h
    simpa using h 0 rfl
  · intro h k hk
    subst hk
    simpa using h

theorem holds_cons (buf : buffer) (i : Nat) (c : Char) (cs : cstr) :
    holds buf i (c :: cs) ↔ buf i = c ∧ c ≠ NUL ∧ holds buf (i + 1) cs := by
  simp only [holds, List.mem_cons, forall_eq_or_imp, List.length_cons]
  constructor
  · rintro ⟨⟨hc, hcs⟩, h⟩
    refine ⟨by simpa using h 0 (by omega), hc, hcs, fun k hk => ?_⟩
    have := h (k + 1) (by omega)
    simp only [List.getD_cons_succ] at this
    rw [← this]
    congr 1
    omega
  · rintro ⟨h0, hc, hcs, h⟩
    refine ⟨⟨hc, hcs⟩, fun k hk => ?_⟩
    cases k with
    | zero => simpa using h0
    | succ k =>
      simp only [List.getD_cons_succ]
      rw [← h k (by omega)]
      congr 1
      omega

theorem holds_frame {buf buf1 : buffer} {i : Nat} {s : cstr} (h : holds buf i s)
    (hf : ∀ j, i ≤ j → j ≤ i + s.length → buf1 j = buf j) : holds buf1 i s :=
  ⟨h.1, fun k hk => by rw [hf (i + k) (by omega) (by omega)]; exact h.2 k hk⟩

theorem holds_string_at (buf : buffer) (s : cstr) : ∀ (fuel i : Nat), holds buf i s →
    s.length < fuel → string_at buf fuel i = s ∧ strlen_buf buf fuel i = s.length := by
  induction s with
  | nil =>
    intro fuel i h hl
    rw [holds_nil] at h
    cases fuel with
    | zero => simp at hl
    | succ fuel => simp [string_at, strlen_buf, h]
  | cons c cs ih =>
    intro fuel i h hl
    rw [holds_cons] at h
    obtain ⟨h0, hc, hcs⟩ := h
    cases fuel with
    | zero => simp at hl
    | succ fuel =>
      simp only [List.length_cons] at hl
      obtain ⟨a, b⟩ := ih fuel (i + 1) hcs (by omega)
      have hn : ¬ buf i = NUL := by rw [h0]; exact hc
      simp [string_at, strlen_buf, a, b, h0, hc]

theorem holds_append (buf : buffer) (a : cstr) : ∀ (i : Nat) (b : cstr),
    holds buf i (a ++ b) → holds buf (i + a.length) b := by
  induction a with
  | nil => intro i b h; simpa using h
  | cons c cs ih =>
    intro i b h
    rw [List.cons_append, holds_cons] at h
    have := ih (i + 1) b h.2.2
    simp only [List.length_cons]
    rw [show i + (cs.length + 1) = i + 1 + cs.length by omega]
    exact this

theorem load_holds (uninit : buffer) (s : cstr) (h : ∀ c ∈ s, c ≠ NUL) :
    holds (load uninit s) 0 s := by
  refine ⟨h, fun k hk => ?_⟩
  simp only [load, Nat.zero_add]
  by_cases hlt : k < s.length
  · simp [hlt]
  · have : k = s.length := by omega
    subst this
    simp

theorem NUL_ne_slash : NUL ≠ '/' := by decide

theorem skip_delimiters_spec (buf : buffer) (l : cstr) : ∀ (fuel s : Nat), holds buf s l →
    l.length < fuel →
    skip_delimiters buf fuel s = s + (l.takeWhile (fun c => c == '/')).length := by
  induction l with
  | nil =>
    intro fuel s h hl
    rw [holds_nil] at h
    cases fuel with
    | zero => simp at hl
    | succ fuel => simp [skip_delimiters, h, NUL_ne_slash]
  | cons c cs ih =>
    intro fuel s h hl
    rw [holds_cons] at h
    obtain ⟨h0, _, hcs⟩ := h
    cases fuel with
    | zero => simp at hl
    | succ fuel =>
      simp only [List.length_cons] at hl
      by_cases hc : c = '/'
      · subst hc
        simp only [skip_delimiters, h0, if_true, List.takeWhile_cons, beq_self_eq_true,
          List.length_cons]
        rw [ih fuel (s + 1) hcs (by omega)]
        omega
      · simp [skip_delimiters, h0, hc, List.takeWhile_cons]

theorem skip_token_spec (buf : buffer) (l : cstr) : ∀ (fuel s : Nat), holds buf s l →
    l.length < fuel →
    skip_token buf fuel s = s + (l.takeWhile (fun c => c != '/')).length := by
  induction l with
  | nil =>
    intro fuel s h hl
    rw [holds_nil] at h
    cases fuel with
    | zero => simp at hl
    | succ fuel => simp [skip_token, h]
  | cons c cs ih =>
    intro fuel s h hl
    rw [holds_cons] at h
    obtain ⟨h0, hn, hcs⟩ := h
    cases fuel with
    | zero => simp at hl
    | succ fuel =>
      simp only [List.length_cons] at hl
      by_cases hc : c = '/'
      · subst hc
        simp [skip_token, h0, List.takeWhile_cons]
      · simp only [skip_token, h0, hc, hn, or_self, if_false, List.takeWhile_cons, bne_iff_ne,
          ne_eq, not_false_eq_true, decide_True, List.length_cons]
        rw [ih fuel (s + 1) hcs (by omega)]
        simp [hc]
        omega

theorem holds_prefix_upd (buf : buffer) (i : Nat) (w : cstr) (y : Char) (r : cstr)
    (h : holds buf i (w ++ y :: r)) : holds (upd buf (i + w.length) NUL) i w := by
  refine ⟨fun c hc => h.1 c (by simp [hc]), fun k hk => ?_⟩
  simp only [upd]
  by_cases hkw : k = w.length
  · subst hkw
    simp
  · have hlt : k < w.length := by omega
    have hne : ¬ i + k = i + w.length := by omega
    simp only [hne, if_false]
    rw [h.2 k (by simp; omega)]
    simp [List.getD_eq_getElem?_getD, List.getElem?_append_left hlt]

theorem strtok_r_buf_spec (buf : buffer) (s : Nat) (l : cstr) (h : holds buf s l)
    (hl : l.length < SCAN_MAX) :
    holds (strtok_r_buf buf s).1 (strtok_r_buf buf s).2.2 (strtok_r l).2 ∧
    (∀ j, j < s → (strtok_r_buf buf s).1 j = buf j) ∧
    s ≤ (strtok_r_buf buf s).2.2 ∧
    (strtok_r_buf buf s).2.2 + (strtok_r l).2.length ≤ s + l.length ∧
    (((strtok_r_buf buf s).2.1 = none ∧ (strtok_r l).1 = none) ∨
      ∃ ti t, (strtok_r_buf buf s).2.1 = some ti ∧ (strtok_r l).1 = some t ∧
        holds (strtok_r_buf buf s).1 ti t ∧ s ≤ ti ∧ ti + t.length ≤ (strtok_r_buf buf s).2.2) := by
  have hsplit := List.takeWhile_append_dropWhile (fun c => c == '/') l
  have hs1 := skip_delimiters_spec buf l SCAN_MAX s h hl
  have hm : holds buf (s + (l.takeWhile (fun c => c == '/')).length)
      (l.dropWhile (fun c => c == '/')) := by
    apply holds_append
    rw [hsplit]
    exact h
  have hlen : l.length = (l.takeWhile (fun c => c == '/')).length +
      (l.dropWhile (fun c => c == '/')).length := by
    have := congrArg List.length hsplit
    simp only [List.length_append] at this
    omega
  cases hd : l.dropWhile (fun c => c == '/') with
  | nil =>
    rw [hd] at hm hlen
    have hnul := (holds_nil _ _).1 hm
    have hb : strtok_r_buf buf s =
        (buf, none, s + (l.takeWhile (fun c => c == '/')).length) := by
      unfold strtok_r_buf
      simp only [hs1, hnul, if_true]
    have hL : strtok_r l = (none, []) := by
      unfold strtok_r
      rw [hd]
    rw [hb, hL]
    simp only [List.length_nil] at hlen
    refine ⟨hm, fun _ _ => rfl, ?_, ?_, Or.inl ⟨rfl, rfl⟩⟩ <;>
      simp only [List.length_nil] <;> omega
  | cons c cs =>
    rw [hd] at hm hlen
    have hc := (holds_cons _ _ _ _).1 hm
    have hnn : ¬ buf (s + (l.takeWhile (fun c => c == '/')).length) = NUL := by
      rw [hc.1]; exact hc.2.1
    have hs2 := skip_token_spec buf (c :: cs) SCAN_MAX _ hm (by omega)
    have hsplit2 := List.takeWhile_append_dropWhile (fun x => x != '/') (c :: cs)
    have hr : holds buf (s + (l.takeWhile (fun c => c == '/')).length +
        ((c :: cs).takeWhile (fun x => x != '/')).length)
        ((c :: cs).dropWhile (fun x => x != '/')) := by
      apply holds_append
      rw [hsplit2]
      exact hm
    have hlen2 : (c :: cs).length = ((c :: cs).takeWhile (fun x => x != '/')).length +
        ((c :: cs).dropWhile (fun x => x != '/')).length := by
      have := congrArg List.length hsplit2
      simp only [List.length_append] at this
      omega
    cases hr2 : (c :: cs).dropWhile (fun x => x != '/') with
    | nil =>
      rw [hr2] at hr hlen2 hsplit2
      have hnul := (holds_nil _ _).1 hr
      have hb : strtok_r_buf buf s =
          (buf, some (s + (l.takeWhile (fun c => c == '/')).length),
            s + (l.takeWhile (fun c => c == '/')).length +
              ((c :: cs).takeWhile (fun x => x != '/')).length) := by
        unfold strtok_r_buf
        simp only [hs1, hnn, if_false, hs2, hnul, ne_eq, not_true_eq_false]
      have hL : strtok_r l = (some ((c :: cs).takeWhile (fun x => x != '/')), []) := by
        unfold strtok_r
        rw [hd]
        simp only [hr2, List.drop_nil]
      rw [hb, hL]
      rw [List.append_nil] at hsplit2
      simp only [List.length_nil] at hlen2
      refine ⟨hr, fun _ _ => rfl, ?_, ?_, Or.inr ⟨_, _, rfl, rfl, ?_, ?_, ?_⟩⟩
      · simp only; omega
      · simp only [List.length_nil]; omega
      · rw [hsplit2]
        exact hm
      · omega
      · simp only; omega
    | cons y r =>
      rw [hr2] at hr hlen2 hsplit2
      have hy := (holds_cons _ _ _ _).1 hr
      have hnn2 : buf (s + (l.takeWhile (fun c => c == '/')).length +
          ((c :: cs).takeWhile (fun x => x != '/')).length) ≠ NUL := by
        rw [hy.1]; exact hy.2.1
      have hb : strtok_r_buf buf s =
          (upd buf (s + (l.takeWhile (fun c => c == '/')).length +
              ((c :: cs).takeWhile (fun x => x != '/')).length) NUL,
            some (s + (l.takeWhile (fun c => c == '/')).length),
            s + (l.takeWhile (fun c => c == '/')).length +
              ((c :: cs).takeWhile (fun x => x != '/')).length + 1) := by
        unfold strtok_r_buf
        simp only [hs1, hnn, if_false, hs2, hnn2, ne_eq, not_false_eq_true, if_true]
      have hL : strtok_r l = (some ((c :: cs).takeWhile (fun x => x != '/')), r) := by
        unfold strtok_r
        rw [hd]
        simp only [hr2, List.drop_succ_cons, List.drop_zero]
      rw [hb, hL]
      simp only [List.length_cons] at hlen2 hlen
      refine ⟨?_, fun j hj => ?_, ?_, ?_, Or.inr ⟨_, _, rfl, rfl, ?_, ?_, ?_⟩⟩
      · apply holds_frame hy.2.2
        intro j hj1 _
        have hne : ¬ j = s + (l.takeWhile (fun c => c == '/')).length +
            ((c :: cs).takeWhile (fun x => x != '/')).length := by omega
        simp only [upd]
        rw [if_neg hne]
      · have hne : ¬ j = s + (l.takeWhile (fun c => c == '/')).length +
            ((c :: cs).takeWhile (fun x => x != '/')).length := by omega
        simp only [upd]
        rw [if_neg hne]
      · simp only; omega
      · simp only
        omega
      · apply holds_prefix_upd _ _ _ y r
        rw [hsplit2]
        exact hm
      · omega
      · simp only; omega

theorem memcpy_spec (n : Nat) : ∀ (buf : buffer) (dst src j : Nat), dst ≤ src →
    memcpy n buf dst src j =
      if dst ≤ j ∧ j < dst + n then buf (src + (j - dst)) else buf j := by
  induction n with
  | zero =>
    intro buf dst src j _
    have h0 : ¬ (dst ≤ j ∧ j < dst + 0) := by omega
    rw [memcpy, if_neg h0]
  | succ n ih =>
    intro buf dst src j hle
    rw [memcpy, ih _ (dst + 1) (src + 1) j (by omega)]
    by_cases h1 : dst + 1 ≤ j ∧ j < dst + 1 + n
    · have h2 : dst ≤ j ∧ j < dst + (n + 1) := by omega
      have h3 : ¬ src + 1 + (j - (dst + 1)) = dst := by omega
      have h4 : src + 1 + (j - (dst + 1)) = src + (j - dst) := by omega
      rw [if_pos h1, if_pos h2]
      simp only [upd]
      rw [if_neg h3, h4]
    · rw [if_neg h1]
      simp only [upd]
      by_cases hj : j = dst
      · have h2 : dst ≤ j ∧ j < dst + (n + 1) := by omega
        rw [if_pos hj, if_pos h2]
        subst hj
        simp
      · have h2 : ¬ (dst ≤ j ∧ j < dst + (n + 1)) := by omega
        rw [if_neg hj, if_neg h2]

theorem strlcpy_buf_spec (buf : buffer) (t n : Nat) (nx : cstr) (h : holds buf n nx)
    (htn : t < n) (hlen : nx.length < PATH_MAX - 1) :
    holds (strlcpy_buf buf t n PATH_MAX) t nx ∧
    ∀ j, (j < t ∨ t + nx.length < j) → strlcpy_buf buf t n PATH_MAX j = buf j := by
  have hsl := (holds_string_at buf nx SCAN_MAX n h
    (by simp only [SCAN_MAX, PATH_MAX] at hlen ⊢; omega)).2
  have hpos : PATH_MAX > 0 := by decide
  simp only [strlcpy_buf, hsl, hpos, if_true, hlen]
  constructor
  · refine ⟨h.1, fun k hk => ?_⟩
    simp only [upd]
    by_cases hkl : k = nx.length
    · subst hkl
      simp
    · have h1 : ¬ t + k = t + nx.length := by omega
      have h2 : t ≤ t + k ∧ t + k < t + nx.length := by omega
      rw [if_neg h1, memcpy_spec _ _ _ _ _ (Nat.le_of_lt htn), if_pos h2]
      rw [show n + (t + k - t) = n + k by omega]
      exact h.2 k hk
  · intro j hj
    simp only [upd]
    have h1 : ¬ j = t + nx.length := by omega
    have h2 : ¬ (t ≤ j ∧ j < t + nx.length) := by omega
    rw [if_neg h1, memcpy_spec _ _ _ _ _ (Nat.le_of_lt htn), if_neg h2]

theorem buf_inv_step (buf : buffer) (t ni save : Nat) (token nx saveL : cstr)
    (h : buf_inv buf t (some ni) save token (some nx) saveL) :
    buf_inv (strtok_r_buf (strlcpy_buf buf t ni PATH_MAX) save).1 t
      (strtok_r_buf (strlcpy_buf buf t ni PATH_MAX) save).2.1
      (strtok_r_buf (strlcpy_buf buf t ni PATH_MAX) save).2.2 nx (strtok_r saveL).1
      (strtok_r saveL).2 := by
  obtain ⟨_, hsave, hbound, _, hn⟩ := h
  rcases hn with ⟨hn, _⟩ | ⟨ni1, nx1, h1, h2, hnx, htn, hle⟩
  · simp at hn
  · simp only [Option.some.injEq] at h1 h2
    subst h1 h2
    have hlen : nx.length < PATH_MAX - 1 := by
      simp only [PATH_MAX] at hbound ⊢
      omega
    obtain ⟨hcopy, hframe⟩ := strlcpy_buf_spec buf t ni nx hnx htn hlen
    have hsave1 : holds (strlcpy_buf buf t ni PATH_MAX) save saveL :=
      holds_frame hsave (fun j hj _ => hframe j (Or.inr (by omega)))
    obtain ⟨hs, hfr, hle1, hle2, hcase⟩ := strtok_r_buf_spec _ save saveL hsave1
      (by simp only [SCAN_MAX]; omega)
    have htok : holds (strtok_r_buf (strlcpy_buf buf t ni PATH_MAX) save).1 t nx :=
      holds_frame hcopy (fun j _ hj => hfr j (by omega))
    refine ⟨htok, hs, by omega, by omega, ?_⟩
    rcases hcase with ⟨a, b⟩ | ⟨ti, tk, a, b, c, d, e⟩
    · exact Or.inl ⟨a, b⟩
    · exact Or.inr ⟨ti, tk, a, b, c, by omega, e⟩

theorem parse_path_buf_loop_none (fuel : Nat) (st : filesys) (d : dir) (buf : buffer)
    (t save : Nat) (token saveL : cstr) (h : buf_inv buf t none save token none saveL) :
    parse_path_buf_loop fuel st d buf t none save = ((st, some (d, token)), []) ∧
    parse_path_loop fuel st d token none saveL = (st, some (d, token)) := by
  obtain ⟨htok, _, hbound, hts, _⟩ := h
  have hsa := holds_string_at buf token SCAN_MAX t htok
    (by simp only [SCAN_MAX]; omega)
  have htake : List.take (PATH_MAX - 1) token = token :=
    List.take_of_length_le (by simp only [PATH_MAX] at hbound ⊢; omega)
  have hcopy : strlcpy [] token PATH_MAX = token := by
    simp only [strlcpy]
    rw [if_neg (by decide), htake]
  cases fuel <;> simp [parse_path_buf_loop, parse_path_loop, hsa.1, htake, hcopy]

theorem parse_path_buf_loop_spec (fuel : Nat) : ∀ (st : filesys) (d : dir) (buf : buffer)
    (t : Nat) (n : Option Nat) (save : Nat) (token : cstr) (next : Option cstr) (saveL : cstr),
    buf_inv buf t n save token next saveL →
    (parse_path_buf_loop fuel st d buf t n save).1 = parse_path_loop fuel st d token next saveL ∧
    (parse_path_buf_loop fuel st d buf t n save).2 <+: token :: tokens_left next saveL ∧
    (∀ d1 leaf, (parse_path_loop fuel st d token next saveL).2 = some (d1, leaf) →
      (parse_path_buf_loop fuel st d buf t n save).2 ++ [leaf] =
        token :: tokens_left next saveL) := by
  induction fuel with
  | zero =>
    intro st d buf t n save token next saveL h
    have h0 := h
    obtain ⟨_, _, _, _, hn⟩ := h
    rcases hn with ⟨rfl, rfl⟩ | ⟨ni, nx, rfl, rfl, _⟩
    · obtain ⟨hB, hL⟩ := parse_path_buf_loop_none 0 st d buf t save token saveL h0
      rw [hB, hL]
      refine ⟨rfl, List.nil_prefix, fun d1 leaf hr => ?_⟩
      simp only [Option.some.injEq, Prod.mk.injEq] at hr
      rw [← hr.2]
      rfl
    · have hB : parse_path_buf_loop 0 st d buf t (some ni) save = ((st, none), []) := rfl
      have hL : parse_path_loop 0 st d token (some nx) saveL = (st, none) := rfl
      rw [hB, hL]
      exact ⟨rfl, List.nil_prefix, fun d1 leaf hr => by simp at hr⟩
  | succ fuel ih =>
    intro st d buf t n save token next saveL h
    have h0 := h
    obtain ⟨htok, _, hbound, hts, hn⟩ := h
    have hsa := holds_string_at buf token SCAN_MAX t htok
      (by simp only [SCAN_MAX]; omega)
    rcases hn with ⟨rfl, rfl⟩ | ⟨ni, nx, rfl, rfl, hnx, htn, hle⟩
    · obtain ⟨hB, hL⟩ := parse_path_buf_loop_none (fuel + 1) st d buf t save token saveL h0
      rw [hB, hL]
      refine ⟨rfl, List.nil_prefix, fun d1 leaf hr => ?_⟩
      simp only [Option.some.injEq, Prod.mk.injEq] at hr
      rw [← hr.2]
      rfl
    · have hsn := holds_string_at buf nx SCAN_MAX ni hnx (by simp only [SCAN_MAX]; omega)
      have hnxlen : nx.length < PATH_MAX - 1 := by
        simp only [PATH_MAX] at hbound ⊢
        omega
      have hcopyL : strlcpy token nx PATH_MAX = nx := by
        simp only [strlcpy]
        rw [if_neg (by decide)]
        exact List.take_of_length_le (by omega)
      have hstep := buf_inv_step buf t ni save token nx saveL h0
      by_cases hchk : List.length token > NAME_MAX + 1 ∨ List.length nx > NAME_MAX + 1
      · have hB : parse_path_buf_loop (fuel + 1) st d buf t (some ni) save =
            ((dir_close st (some d), none), []) := by
          rw [parse_path_buf_loop]
          simp only [hsa.2, hsn.2]
          rw [if_pos hchk]
        have hL : parse_path_loop (fuel + 1) st d token (some nx) saveL =
            (dir_close st (some d), none) := by
          rw [parse_path_loop]
          simp only [strlen]
          rw [if_pos hchk]
        rw [hB, hL]
        exact ⟨rfl, List.nil_prefix, fun d1 leaf hr => by simp at hr⟩
      · rcases hlk : dir_lookup st d token with ⟨st1, oi⟩
        cases oi with
        | none =>
          have hB : parse_path_buf_loop (fuel + 1) st d buf t (some ni) save =
              ((dir_close st1 (some d), none), [token]) := by
            rw [parse_path_buf_loop]
            simp only [hsa.2, hsn.2, hsa.1]
            rw [if_neg hchk, hlk]
          have hL : parse_path_loop (fuel + 1) st d token (some nx) saveL =
              (dir_close st1 (some d), none) := by
            rw [parse_path_loop]
            simp only [strlen]
            rw [if_neg hchk, hlk]
          rw [hB, hL]
          exact ⟨rfl, by simp, fun d1 leaf hr => by simp at hr⟩
        | some i =>
          by_cases hd : inode_is_dir (dir_close st1 (some d)) i = true
          · obtain ⟨e1, e2, e3⟩ := ih (dir_close st1 (some d)) ⟨i, 0⟩ _ t _ _ nx _ _ hstep
            have hcomp := strtok_r_components saveL
            rw [hcomp] at e2 e3
            have hB : parse_path_buf_loop (fuel + 1) st d buf t (some ni) save =
                ((parse_path_buf_loop fuel (dir_close st1 (some d)) ⟨i, 0⟩
                    (strtok_r_buf (strlcpy_buf buf t ni PATH_MAX) save).1 t
                    (strtok_r_buf (strlcpy_buf buf t ni PATH_MAX) save).2.1
                    (strtok_r_buf (strlcpy_buf buf t ni PATH_MAX) save).2.2).1,
                  token :: (parse_path_buf_loop fuel (dir_close st1 (some d)) ⟨i, 0⟩
                    (strtok_r_buf (strlcpy_buf buf t ni PATH_MAX) save).1 t
                    (strtok_r_buf (strlcpy_buf buf t ni PATH_MAX) save).2.1
                    (strtok_r_buf (strlcpy_buf buf t ni PATH_MAX) save).2.2).2) := by
              rw [parse_path_buf_loop]
              simp only [hsa.2, hsn.2, hsa.1]
              rw [if_neg hchk, hlk]
              simp only [hd, Bool.not_true, Bool.false_eq_true, if_false, dir_open]
            have hL : parse_path_loop (fuel + 1) st d token (some nx) saveL =
                parse_path_loop fuel (dir_close st1 (some d)) ⟨i, 0⟩ nx (strtok_r saveL).1
                  (strtok_r saveL).2 := by
              rw [parse_path_loop]
              simp only [strlen]
              rw [if_neg hchk, hlk]
              simp only [hd, Bool.not_true, Bool.false_eq_true, if_false, dir_open, hcopyL]
            rw [hB, hL]
            refine ⟨e1, ?_, fun d1 leaf hr => ?_⟩
            · exact (List.prefix_cons_inj token).2 e2
            · have := e3 d1 leaf hr
              simp only [tokens_left, List.cons_append, this]
          · have hB : parse_path_buf_loop (fuel + 1) st d buf t (some ni) save =
                ((dir_close st1 (some d), none), [token]) := by
              rw [parse_path_buf_loop]
              simp only [hsa.2, hsn.2, hsa.1]
              rw [if_neg hchk, hlk]
              simp only [hd, Bool.not_false, if_true]
            have hL : parse_path_loop (fuel + 1) st d token (some nx) saveL =
                (dir_close st1 (some d), none) := by
              rw [parse_path_loop]
              simp only [strlen]
              rw [if_neg hchk, hlk]
              simp only [hd, Bool.not_false, if_true]
            rw [hB, hL]
            exact ⟨rfl, by simp, fun d1 leaf hr => by simp at hr⟩

theorem strtok_r_token_pos (s t : cstr) (h : (strtok_r s).1 = some t) : 0 < t.length := by
  unfold strtok_r at h
  cases hd : s.dropWhile (fun c => c == '/') with
  | nil => rw [hd] at h; simp at h
  | cons c cs =>
    rw [hd] at h
    simp only [Option.some.injEq] at h
    have hc : (c == '/') = false := by
      have := List.head_dropWhile_not (fun c => c == '/') s (by rw [hd]; simp)
      simpa [hd] using this
    subst h
    have hc1 : c ≠ '/' := by simpa using hc
    rw [List.takeWhile_cons]
    simp [hc1]

theorem load_head (uninit : buffer) (path : cstr) (hnul : ∀ c ∈ path, c ≠ NUL) :
    load uninit path 0 = '/' ↔ path.head? = some '/' := by
  cases path with
  | nil =>
    simp only [load, List.length_nil, Nat.lt_irrefl, if_false, if_true, List.head?_nil]
    constructor
    · intro h; exact absurd h (by decide)
    · intro h; simp at h
  | cons c cs => simp [load]

theorem parse_path_buf_first (uninit : buffer) (path : cstr) (hnul : ∀ c ∈ path, c ≠ NUL)
    (hlen : path.length < PATH_MAX) :
    ((strtok_r_buf (load uninit path) 0).2.1 = none ∧ (strtok_r path).1 = none) ∨
    ∃ ti t, (strtok_r_buf (load uninit path) 0).2.1 = some ti ∧ (strtok_r path).1 = some t ∧
      buf_inv (strtok_r_buf (strtok_r_buf (load uninit path) 0).1
          (strtok_r_buf (load uninit path) 0).2.2).1 ti
        (strtok_r_buf (strtok_r_buf (load uninit path) 0).1
          (strtok_r_buf (load uninit path) 0).2.2).2.1
        (strtok_r_buf (strtok_r_buf (load uninit path) 0).1
          (strtok_r_buf (load uninit path) 0).2.2).2.2
        t (strtok_r (strtok_r path).2).1 (strtok_r (strtok_r path).2).2 := by
  have h0 := load_holds uninit path hnul
  have hP : PATH_MAX = 256 := rfl
  have hS : SCAN_MAX = 257 := rfl
  obtain ⟨hs1, _, _, hb1, hc1⟩ := strtok_r_buf_spec (load uninit path) 0 path h0 (by omega)
  rcases hc1 with hn | ⟨ti, t, e1, e2, ht, _, hte⟩
  · exact Or.inl hn
  · refine Or.inr ⟨ti, t, e1, e2, ?_⟩
    have hpos := strtok_r_token_pos path t e2
    obtain ⟨hs2, hf2, hle2, hb2, hc2⟩ := strtok_r_buf_spec (strtok_r_buf (load uninit path) 0).1
      (strtok_r_buf (load uninit path) 0).2.2 (strtok_r path).2 hs1 (by omega)
    have htok : holds (strtok_r_buf (strtok_r_buf (load uninit path) 0).1
        (strtok_r_buf (load uninit path) 0).2.2).1 ti t := by
      refine ⟨ht.1, fun k hk => ?_⟩
      by_cases hlt : ti + k < (strtok_r_buf (load uninit path) 0).2.2
      · rw [hf2 _ hlt]
        exact ht.2 k hk
      · have hk1 : k = t.length := by omega
        have hsave : (strtok_r_buf (load uninit path) 0).2.2 = ti + k := by omega
        have hz := ht.2 k hk
        have hr := hs1.2 0 (Nat.zero_le _)
        rw [Nat.add_zero, hsave, hz] at hr
        have hrest : (strtok_r path).2 = [] := by
          cases hq : (strtok_r path).2 with
          | nil => rfl
          | cons c cs =>
            rw [hq] at hr
            have hc := hs1.1 c (by rw [hq]; simp)
            simp only [hk1, List.getD_eq_getElem?_getD, List.getElem?_length,
              Option.getD_none, List.getElem?_cons_zero, Option.getD_some] at hr
            exact absurd hr.symm hc
        have hl0 : (strtok_r path).2.length = 0 := by rw [hrest]; rfl
        have hsame : (strtok_r_buf (strtok_r_buf (load uninit path) 0).1
            (strtok_r_buf (load uninit path) 0).2.2).2.2 = ti + k := by omega
        have hlen0 : (strtok_r (strtok_r path).2).2.length = 0 := by omega
        have hx := hs2.2 0 (Nat.zero_le _)
        rw [Nat.add_zero, hsame] at hx
        rw [List.length_eq_zero] at hlen0
        rw [hx, hlen0, hk1]
        simp
    refine ⟨htok, hs2, by omega, by omega, ?_⟩
    rcases hc2 with hn | ⟨ni, nx, a, b, c, d, e⟩
    · exact Or.inl hn
    · exact Or.inr ⟨ni, nx, a, b, c, by omega, e⟩

/-- C20 (as amended): for every path shorter than `PATH_MAX`, the loop of `parse_path` run on
the buffer, shifting the next token into the place of the current one between the `strtok_r`
calls, never overwrites input still to be tokenised: it returns what the token-level
`parse_path` returns, the names it passes to `dir_lookup` are, in order, a prefix of the
non-empty components of the path, and when it returns a directory and the path has a component,
these names followed by the returned leaf are exactly the components; for a path with no
component nothing is looked up and the leaf is ".". -/
theorem parse_path_buf_names (st : filesys) (uninit : buffer) (path : cstr)
    (hnul : ∀ c ∈ path, c ≠ NUL) (hlen : path.length < PATH_MAX) :
    (parse_path_buf st uninit path).1 = parse_path st path ∧
    (parse_path_buf st uninit path).2 <+: components path ∧
    (∀ d leaf, (parse_path_buf st uninit path).1.2 = some (d, leaf) →
      (components path ≠ [] → (parse_path_buf st uninit path).2 ++ [leaf] = components path) ∧
      (components path = [] → (parse_path_buf st uninit path).2 = [] ∧ leaf = ['.'])) := by
  by_cases hp : path = []
  · subst hp
    have hB : parse_path_buf st uninit [] = ((st, none), []) := rfl
    have hL : parse_path st [] = (st, none) := rfl
    rw [hB, hL]
    exact ⟨rfl, List.nil_prefix, fun d leaf hr => by simp at hr⟩
  · have hne : ¬ strlen path = 0 := by
      simp only [strlen, List.length_eq_zero]
      exact hp
    have hcopy : strlcpy [] path (PATH_MAX + 1) = path := by
      simp only [strlcpy]
      rw [if_neg (by decide)]
      exact List.take_of_length_le (by omega)
    have hhead := load_head uninit path hnul
    unfold parse_path_buf parse_path
    rw [if_neg hne, if_neg hne]
    simp only [hcopy, hhead]
    generalize (if path.head? = some '/' then dir_open_root st
      else dir_reopen st st.current_dir) = r
    rcases r with ⟨st1, _ | dir⟩
    · exact ⟨rfl, List.nil_prefix, fun d leaf hr => by simp at hr⟩
    · rcases parse_path_buf_first uninit path hnul hlen with ⟨e1, e2⟩ | ⟨ti, t, e1, e2, hinv⟩
      · have hc : components path = [] := by
          rw [← strtok_r_components, e2]
          rfl
        simp only [e1, e2, hc]
        refine ⟨trivial, List.nil_prefix, fun d leaf hr => ⟨fun h => absurd rfl h, fun _ => ?_⟩⟩
        simp only [Option.some.injEq, Prod.mk.injEq] at hr
        refine ⟨trivial, ?_⟩
        rw [← hr.2]
        rfl
      · have hc : t :: tokens_left (strtok_r (strtok_r path).2).1 (strtok_r (strtok_r path).2).2 =
            components path := by
          rw [strtok_r_components, ← strtok_r_components path, e2]
          rfl
        have hsa := holds_string_at _ t SCAN_MAX ti hinv.1
          (by have := hinv.2.2.2.1; have := hinv.2.2.1; simp only [SCAN_MAX, PATH_MAX] at *; omega)
        have hcond : ((strtok_r_buf (strtok_r_buf (load uninit path) 0).1
              (strtok_r_buf (load uninit path) 0).2.2).2.1 = none ∧
            strlen_buf (strtok_r_buf (strtok_r_buf (load uninit path) 0).1
              (strtok_r_buf (load uninit path) 0).2.2).1 SCAN_MAX ti > NAME_MAX + 1) ↔
            ((strtok_r (strtok_r path).2).1 = none ∧ strlen t > NAME_MAX + 1) := by
          rw [hsa.2]
          simp only [strlen]
          rcases hinv.2.2.2.2 with ⟨a, b⟩ | ⟨ni, nx, a, b, _⟩
          · simp only [a, b]
          · simp only [a, b]
            simp
        simp only [e1, e2, hcond]
        by_cases hbig : (strtok_r (strtok_r path).2).1 = none ∧ strlen t > NAME_MAX + 1
        · rw [if_pos hbig, if_pos hbig]
          exact ⟨rfl, List.nil_prefix, fun d leaf hr => by simp at hr⟩
        · rw [if_neg hbig, if_neg hbig]
          obtain ⟨l1, l2, l3⟩ := parse_path_buf_loop_spec (strlen path) st1 dir _ ti _ _ t _ _ hinv
          rw [hc] at l2 l3
          refine ⟨l1, l2, fun d leaf hr => ⟨fun _ => ?_, fun hnil => ?_⟩⟩
          · rw [l1] at hr
            exact l3 d leaf hr
          · rw [hnil] at hc
            exact absurd hc (by simp)

/-- C20 fails as stated: the path `/` is shorter than `PATH_MAX` and has no component, yet
`parse_path` returns the root directory with the leaf ".": the names passed to `dir_lookup`
followed by the returned leaf are the one name ".", not the (empty) list of components of the
path. -/
theorem root_path_leaf_counterexample :
    ['/'].length < PATH_MAX ∧
    (parse_path_buf fresh_fs (fun _ => 'x') ['/']).1.2 = some (⟨ROOT_DIR_SECTOR, 0⟩, ['.']) ∧
    (parse_path_buf fresh_fs (fun _ => 'x') ['/']).2 = [] ∧
    components ['/'] = [] ∧
    (parse_path_buf fresh_fs (fun _ => 'x') ['/']).2 ++ [['.']] ≠ components ['/'] := by
  decide

theorem parse_path_buf_names_witness :
    ((∀ c ∈ ['/', 'a', '/', 'b'], c ≠ NUL) ∧ ['/', 'a', '/', 'b'].length < PATH_MAX) ∧
    (parse_path_buf fs_with_dir_a (fun _ => 'x') ['/', 'a', '/', 'b']).2 = [['a']] ∧
    ((parse_path_buf fs_with_dir_a (fun _ => 'x') ['/', 'a', '/', 'b']).1 =
        parse_path fs_with_dir_a ['/', 'a', '/', 'b'] ∧
      (parse_path_buf fs_with_dir_a (fun _ => 'x') ['/', 'a', '/', 'b']).2 <+:
        components ['/', 'a', '/', 'b'] ∧
      (∀ d leaf,
        (parse_path_buf fs_with_dir_a (fun _ => 'x') ['/', 'a', '/', 'b']).1.2 = some (d, leaf) →
        (components ['/', 'a', '/', 'b'] ≠ [] →
          (parse_path_buf fs_with_dir_a (fun _ => 'x') ['/', 'a', '/', 'b']).2 ++ [leaf] =
            components ['/', 'a', '/', 'b']) ∧
        (components ['/', 'a', '/', 'b'] = [] →
          (parse_path_buf fs_with_dir_a (fun _ => 'x') ['/', 'a', '/', 'b']).2 = [] ∧
            leaf = ['.']))) :=
  ⟨⟨by decide, by decide⟩, by decide,
    parse_path_buf_names fs_with_dir_a (fun _ => 'x') ['/', 'a', '/', 'b'] (by decide) (by decide)⟩

end Filesys
